import Mathlib

/-!
# `jx start pipeline`: job catalog, selection, trigger and tracking

A shallow embedding of `pkg/jx/cmd/start_pipeline.go`.

* Go values of type `error` are `Option Error` (`none` is `nil`); a Go call
  returning `(T, error)` whose value is read only under `err == nil` is an
  `Except Error T`, and one whose value is read regardless of `err`
  (`GetLastBuild`) is a pair `T × Option Error`.
* `o.Jobs` is a `map[string]*gojenkins.Job`: an association list from key to
  heap address, looked up at the first match (an assignment `o.Jobs[k] = p`
  puts the pair in front).  The heap is a list of `Job` cells.
* `for _, j := range jobs` declares one variable `j` for the whole loop (the
  repository predates per-iteration loop variables), so `&j` is one address
  per call of `addJobs`.
* Unbounded recursion (`addJobs`) and the unbounded polling loop (`startJob`)
  take a bound: `none` means that the bound was reached.
* The remote server is scripted: the answer to a `GetLastBuild` or `Build`
  request may depend on how many such requests were made before.
-/

namespace StartPipeline

/-! ## Strings -/

/-- Go `strings.Contains(s, substr)`. -/
def Contains (s substr : String) : Bool :=
  decide (substr.data <:+: s.data)

/-- Go `strings.HasSuffix(s, suffix)`. -/
def HasSuffix (s suffix : String) : Bool :=
  decide (suffix.data <:+ s.data)

/-- Lexicographic comparison of code sequences. -/
def lexLe : List Nat → List Nat → Bool
  | [], _ => true
  | x :: xs, y :: ys => decide (x < y) || (decide (x = y) && lexLe xs ys)
  | _ :: _, [] => false

/-- Go `a <= b` on strings: bytewise lexicographic, which on UTF-8 text is the
lexicographic order of the code points. -/
def strLe (a b : String) : Bool :=
  lexLe (a.data.map Char.toNat) (b.data.map Char.toNat)

/-- Insert into an ascending list. -/
def orderedInsert (a : String) : List String → List String
  | [] => [a]
  | b :: l => if strLe a b then a :: b :: l else b :: orderedInsert a l

/-- Go `sort.Strings`. -/
def sortStrings : List String → List String
  | [] => []
  | a :: l => orderedInsert a (sortStrings l)

/-! ## Data model -/

/-- Go `error` values met by the command. -/
inductive Error where
  /-- The value of `util.InvalidArg(name, allNames)`. -/
  | InvalidArg (name : String) (allNames : List String)
  /-- An error handed back by a collaborator (client, picker, URL parser). -/
  | other (msg : String)
  deriving DecidableEq, Repr

/-- The fields of `gojenkins.Job` that the command reads.  `Jobs` is `none` for
a `nil` slice. -/
structure Job where
  Name : String
  FullName : String
  Class : String
  Jobs : Option (List Job)

/-- The zero value `gojenkins.Job{}`. -/
instance : Inhabited Job := ⟨⟨"", "", "", none⟩⟩

/-- The fields of `gojenkins.Build` that the command reads. -/
structure Build where
  Number : Int
  Url : String
  deriving DecidableEq, Repr

/-- The zero value `gojenkins.Build{}`. -/
instance : Inhabited Build := ⟨⟨0, ""⟩⟩

/-- The Jenkins client.  `GetLastBuild n job` answers the request made after
`n` earlier `GetLastBuild` requests, `Build n job` the trigger made after `n`
earlier triggers (always with empty parameters). -/
structure Jenkins where
  GetJobs : Except Error (List Job)
  GetJob : String → Except Error Job
  GetLastBuild : Nat → Job → Build × Option Error
  Build : Nat → Job → Option Error
  TailLog : String → Option Error

/-- Heap addresses. -/
abbrev Ptr := Nat

/-- The heap cells holding `gojenkins.Job` variables whose address is taken. -/
abbrev Heap := List Job

/-- The command's options together with what it reaches through
`CommonOptions`: `JenkinsClient` is the result of `o.JenkinsClient()`,
`PickNameWithDefault names defaultName` that of `util.PickNameWithDefault`,
`urlPath` that of `url.Parse` followed by `.Path`. -/
structure StartPipelineOptions where
  JenkinsClient : Except Error Jenkins
  PickNameWithDefault : List String → String → Except Error String
  urlPath : String → Except Error String
  Args : List String
  Tail : Bool
  Filter : String
  Jobs : List (String × Ptr)

/-! ## Catalog -/

/-- Source: `IsPipeline`. -/
def IsPipeline (j : Job) : Bool :=
  Contains j.Class "Job"

/-- Source: `jobName`. -/
def jobName (pfx : String) (j : Job) : String :=
  let name := if j.FullName = "" then j.Name else j.FullName
  if pfx ≠ "" then pfx ++ "/" ++ name else name

/-- The body of the `for _, j := range jobs` loop of `addJobs`; `jp` is the
address of the loop variable `j` and `recurse` the recursive call. -/
def addJobsLoop (jenkins : Jenkins)
    (recurse : String → List Job → StartPipelineOptions × Heap →
      Option (StartPipelineOptions × Heap))
    (pfx : String) (jp : Ptr) :
    List Job → StartPipelineOptions × Heap → Option (StartPipelineOptions × Heap)
  | [], s => some s
  | j :: rest, (o, heap) =>
    let heap := heap.set jp j
    let name := jobName pfx j
    let o := if IsPipeline j && (o.Filter == "" || Contains name o.Filter)
      then { o with Jobs := (name, jp) :: o.Jobs } else o
    let r := match j.Jobs with
      | some js => recurse name js (o, heap)
      | none =>
        match jenkins.GetJob name with
        | .ok job =>
          match job.Jobs with
          | some js => recurse name js (o, heap)
          | none => some (o, heap)
        | .error _ => some (o, heap)
    match r with
    | none => none
    | some s => addJobsLoop jenkins recurse pfx jp rest s

/-- Source: `addJobs`, with recursion depth at most the first argument. -/
def addJobs : Nat → String → List Job → StartPipelineOptions × Heap →
    Option (StartPipelineOptions × Heap)
  | 0, _, _, _ => none
  | fuel + 1, pfx, jobs, (o, heap) =>
    match o.JenkinsClient with
    | .error _ => some (o, heap)
    | .ok jenkins =>
      addJobsLoop jenkins (addJobs fuel) pfx heap.length jobs (o, heap ++ [default])

/-- The keys of the map `o.Jobs`, in insertion order, repetitions included. -/
def keys (o : StartPipelineOptions) : List String :=
  o.Jobs.map Prod.fst

/-- The job that `*o.Jobs[name]` reads, if `name` is a key. -/
def lookupJob (o : StartPipelineOptions) (heap : Heap) (name : String) : Option Job :=
  match o.Jobs.lookup name with
  | some p => some (heap.getD p default)
  | none => none


/-! ## The job tree -/

/-- The state threaded through `addJobs`: the options (with the map) and the heap. -/
abbrev State := StartPipelineOptions × Heap

/-- The children of the node `j` whose fully-qualified name is `name`: those
given inline, or else those returned by a successful fetch of `name`. -/
def children (jenkins : Jenkins) (name : String) (j : Job) : Option (List Job) :=
  match j.Jobs with
  | some js => some js
  | none =>
    match jenkins.GetJob name with
    | .ok job => job.Jobs
    | .error _ => none

/-- The node `c` lies in the forest `jobs` placed under `pfx`, and `k` is the
'/'-joined path from the root to it. -/
inductive Desc (jenkins : Jenkins) : String → List Job → String → Job → Prop
  | here {pfx : String} {jobs : List Job} {j : Job} :
      j ∈ jobs → Desc jenkins pfx jobs (jobName pfx j) j
  | under {pfx : String} {jobs : List Job} {j : Job} {js : List Job} {k : String} {c : Job} :
      j ∈ jobs → children jenkins (jobName pfx j) j = some js →
      Desc jenkins (jobName pfx j) js k c → Desc jenkins pfx jobs k c

/-- The forest `jobs` under `pfx` is finite: every chain of inline or fetched
children ends. -/
inductive FiniteForest (jenkins : Jenkins) : String → List Job → Prop
  | intro {pfx : String} {jobs : List Job} :
      (∀ j ∈ jobs, ∀ js, children jenkins (jobName pfx j) j = some js →
        FiniteForest jenkins (jobName pfx j) js) → FiniteForest jenkins pfx jobs

/-- A node without children. -/
def IsLeaf (jenkins : Jenkins) (name : String) (j : Job) : Prop :=
  children jenkins name j = none ∨ children jenkins name j = some []

/-- The filter test of `addJobs`. -/
def passes (f : String) (name : String) : Bool :=
  f == "" || Contains name f

/-- The options `o'` differ from `o` at most in the map `Jobs`. -/
def Frame (o o' : StartPipelineOptions) : Prop :=
  o'.JenkinsClient = o.JenkinsClient ∧ o'.PickNameWithDefault = o.PickNameWithDefault ∧
  o'.urlPath = o.urlPath ∧ o'.Args = o.Args ∧ o'.Tail = o.Tail ∧ o'.Filter = o.Filter

/-- What a terminated traversal of `jobs` under `pfx` does to the state: only
the map changes, and its keys grow by the paths of the pipeline nodes that
pass the filter. -/
def Adds (jenkins : Jenkins) (pfx : String) (jobs : List Job) (s s' : State) : Prop :=
  Frame s.1 s'.1 ∧
  ∀ k, k ∈ keys s'.1 ↔ k ∈ keys s.1 ∨
    ∃ j, Desc jenkins pfx jobs k j ∧ IsPipeline j = true ∧ passes s.1.Filter k = true

/-! ## Trigger and tracking -/

/-- What the command does to the outside world, in the order it does it. -/
inductive Event where
  /-- A request `jenkins.GetLastBuild(*job)`. -/
  | GetLastBuild (job : Job)
  /-- A request `jenkins.Build(*job, url.Values{})`. -/
  | Build (job : Job)
  /-- One `time.Sleep(time.Second)`. -/
  | Sleep
  /-- The two lines "Started build of ..." and "view the log at: ..." printed
  by `startJob` for the build `last`. -/
  | Started (name : String) (last : Build)
  /-- The line "tailing the log of ..." printed by `tailBuild`. -/
  | Tailing (name : String) (build : Build)
  /-- A call `jenkins.TailLog(buildPath, ...)`. -/
  | TailLog (buildPath : String)
  /-- A call `util.PickNameWithDefault(names, ..., defaultName)`. -/
  | Pick (names : List String) (defaultName : String)

/-- The outside world: how many `GetLastBuild` and `Build` requests the server
has received, and everything done so far, oldest first. -/
structure World where
  lastBuildCalls : Nat
  buildCalls : Nat
  trace : List Event

/-- Record an event. -/
def World.emit (w : World) (e : Event) : World :=
  { w with trace := w.trace ++ [e] }

/-- Send a `GetLastBuild` request. -/
def getLastBuild (jenkins : Jenkins) (job : Job) (w : World) : Build × Option Error × World :=
  let r := jenkins.GetLastBuild w.lastBuildCalls job
  (r.1, r.2, { w with lastBuildCalls := w.lastBuildCalls + 1,
                      trace := w.trace ++ [Event.GetLastBuild job] })

/-- Send a `Build` request. -/
def build (jenkins : Jenkins) (job : Job) (w : World) : Option Error × World :=
  (jenkins.Build w.buildCalls job,
    { w with buildCalls := w.buildCalls + 1, trace := w.trace ++ [Event.Build job] })

/-- Source: `tailBuild`. -/
def tailBuild (o : StartPipelineOptions) (jobName : String) (b : Build) (w : World) :
    Option Error × World :=
  match o.JenkinsClient with
  | .error _ => (none, w)
  | .ok jenkins =>
    match o.urlPath b.Url with
    | .error err => (some err, w)
    | .ok buildPath =>
      let w := w.emit (Event.Tailing jobName b)
      (jenkins.TailLog buildPath, w.emit (Event.TailLog buildPath))

/-- The `for` loop of `startJob`, run for at most the given number of
iterations; `i` is the loop counter. -/
def pollLoop (o : StartPipelineOptions) (jenkins : Jenkins) (name : String) (job : Job)
    (previous : Build) : Nat → Nat → World → Option (Option Error × World)
  | 0, _, _ => none
  | fuel + 1, i, w =>
    let (last, err, w) := getLastBuild jenkins job w
    if i > 0 ∧ err ≠ none then some (err, w)
    else
      if last.Number ≠ previous.Number then
        let w := w.emit (Event.Started name last)
        if o.Tail then some (tailBuild o name last w) else some (none, w)
      else pollLoop o jenkins name job previous fuel (i + 1) (w.emit Event.Sleep)

/-- Source: `startJob`, polling at most `fuel` times. -/
def startJob (o : StartPipelineOptions) (heap : Heap) (fuel : Nat) (name : String)
    (allNames : List String) (w : World) : Option (Option Error × World) :=
  match o.Jobs.lookup name with
  | none => some (some (Error.InvalidArg name allNames), w)
  | some p =>
    let job := heap.getD p default
    match o.JenkinsClient with
    | .error err => some (some err, w)
    | .ok jenkins =>
      let (previous, _, w) := getLastBuild jenkins job w
      match build jenkins job w with
      | (some err, w) => some (some err, w)
      | (none, w) => pollLoop o jenkins name job previous fuel 0 w

/-! ## Selection -/

/-- The search for the default name in `Run`. -/
def defaultName : List String → String
  | [] => ""
  | n :: rest => if HasSuffix n "/master" then n else defaultName rest

/-- The keys of `o.Jobs` collected and sorted as in `Run`. -/
def sortedNames (o : StartPipelineOptions) : List String :=
  sortStrings (keys o).dedup

/-- The loop `for _, a := range args` of `Run`. -/
def startJobs (o : StartPipelineOptions) (heap : Heap) (fuel : Nat) (names : List String) :
    List String → World → Option (Option Error × World)
  | [], w => some (none, w)
  | a :: rest, w =>
    match startJob o heap fuel a names w with
    | none => none
    | some (some err, w) => some (some err, w)
    | some (none, w) => startJobs o heap fuel names rest w

/-- The block `if len(args) == 0 { ... }` of `Run`: the arguments to start,
or the error of the picker. -/
def selectArgs (o : StartPipelineOptions) (names : List String) (w : World) :
    Except Error (List String) × World :=
  match o.Args with
  | [] =>
    let w := w.emit (Event.Pick names (defaultName names))
    match o.PickNameWithDefault names (defaultName names) with
    | .error err => (.error err, w)
    | .ok name => (.ok [name], w)
  | a :: rest => (.ok (a :: rest), w)

/-- Source: `Run`; `fuel` bounds both the depth of `addJobs` and the number of
polls of each `startJob`. -/
def Run (o : StartPipelineOptions) (fuel : Nat) (w : World) : Option (Option Error × World) :=
  match o.JenkinsClient with
  | .error err => some (some err, w)
  | .ok jenkins =>
    match jenkins.GetJobs with
    | .error err => some (some err, w)
    | .ok jobs =>
      match addJobs fuel "" jobs ({ o with Jobs := [] }, []) with
      | none => none
      | some (o, heap) =>
        let names := sortedNames o
        match selectArgs o names w with
        | (.error err, w) => some (some err, w)
        | (.ok args, w) => startJobs o heap fuel names args w

/-- The events of `k` polls that each found nothing new. -/
def waiting (job : Job) : Nat → List Event
  | 0 => []
  | k + 1 => Event.GetLastBuild job :: Event.Sleep :: waiting job k

/-- The event is a `time.Sleep`. -/
def Event.isSleep : Event → Bool
  | Event.Sleep => true
  | _ => false

/-- The event is a `GetLastBuild` request. -/
def Event.isGetLastBuild : Event → Bool
  | Event.GetLastBuild _ => true
  | _ => false

/-- The last '/'-separated segment of a name. -/
def lastSegment (n : String) : String :=
  ⟨(n.data.reverse.takeWhile (fun c => c != '/')).reverse⟩

/-- The key's last path segment is `master` and the key is not the root-level
key `master` itself. -/
def UnderMaster (n : String) : Prop :=
  lastSegment n = "master" ∧ n ≠ "master"

/-! ## Concrete inputs -/

/-- A server on which every job fetch fails, no job has a build, and every
trigger succeeds. -/
def bareJenkins : Jenkins where
  GetJobs := .ok []
  GetJob := fun _ => .error (.other "404")
  GetLastBuild := fun _ _ => (default, some (.other "404"))
  Build := fun _ _ => none
  TailLog := fun _ => none

/-- Options with no filter, no arguments and an empty map. -/
def bareOptions (jenkins : Jenkins) : StartPipelineOptions where
  JenkinsClient := .ok jenkins
  PickNameWithDefault := fun _ d => .ok d
  urlPath := fun u => .ok u
  Args := []
  Tail := false
  Filter := ""
  Jobs := []

/-- The class Jenkins gives a folder. -/
def folderClass : String := "com.cloudbees.hudson.plugins.folder.Folder"

/-- The class Jenkins gives a pipeline job; it contains `Job`. -/
def pipelineClass : String := "org.jenkinsci.plugins.workflow.job.WorkflowJob"

/-- Folder `team1` holding pipeline `service-a` and folder `nested`, which
holds pipeline `service-b`. -/
def team1 : Job :=
  ⟨"team1", "", folderClass, some [
    ⟨"service-a", "", pipelineClass, some []⟩,
    ⟨"nested", "", folderClass, some [⟨"service-b", "", pipelineClass, some []⟩]⟩]⟩

/-- A pipeline-classified node `multi` that has a child pipeline `master`. -/
def multi : Job :=
  ⟨"multi", "", pipelineClass, some [⟨"master", "", pipelineClass, some []⟩]⟩

/-- A pipeline at the root. -/
def svc : Job := ⟨"svc", "", pipelineClass, some []⟩

/-- The first of two sibling pipelines. -/
def serviceA : Job := ⟨"service-a", "", pipelineClass, some []⟩

/-- The second of two sibling pipelines. -/
def serviceB : Job := ⟨"service-b", "", pipelineClass, some []⟩

/-- A server with the root jobs `jobs` whose last build is 41 before the
trigger and at the first poll after it, and 42 from then on. -/
def steadyJenkins (jobs : List Job) : Jenkins where
  GetJobs := .ok jobs
  GetJob := fun _ => .error (.other "404")
  GetLastBuild := fun n _ =>
    if n ≤ 1 then (⟨41, "http://jenkins/job/41/"⟩, none)
    else (⟨42, "http://jenkins/job/42/"⟩, none)
  Build := fun _ _ => none
  TailLog := fun _ => none

/-- A server whose last build is 41 before the trigger, and whose first answer
after the trigger is a failure that comes with the zero `Build`. -/
def flakyJenkins : Jenkins where
  GetJobs := .ok [svc]
  GetJob := fun _ => .error (.other "404")
  GetLastBuild := fun n _ =>
    if n = 0 then (⟨41, "http://jenkins/job/41/"⟩, none)
    else if n = 1 then (default, some (.other "connection reset"))
    else (⟨42, "http://jenkins/job/42/"⟩, none)
  Build := fun _ _ => none
  TailLog := fun _ => none

/-- A server on which every trigger is refused. -/
def refusingJenkins : Jenkins where
  GetJobs := .ok [svc]
  GetJob := fun _ => .error (.other "404")
  GetLastBuild := fun _ _ => (⟨41, "http://jenkins/job/41/"⟩, none)
  Build := fun _ _ => some (.other "403")
  TailLog := fun _ => none

/-- A server whose job has never built: the lookup before the trigger and the
first poll after it fail with the zero `Build`, then build 1 shows. -/
def freshJenkins : Jenkins where
  GetJobs := .ok [svc]
  GetJob := fun _ => .error (.other "404")
  GetLastBuild := fun n _ =>
    if n ≤ 1 then (default, some (.other "404")) else (⟨1, "http://jenkins/job/1/"⟩, none)
  Build := fun _ _ => none
  TailLog := fun _ => none

/-- Options whose map holds the single job `svc`, stored at address 0. -/
def svcOptions (jenkins : Jenkins) : StartPipelineOptions :=
  { bareOptions jenkins with Jobs := [("svc", 0)] }

/-- The world before anything happened. -/
def World.start : World := ⟨0, 0, []⟩

/-- A pipeline named `master` at the root. -/
def rootMaster : Job := ⟨"master", "", pipelineClass, some []⟩

/-- Options with no arguments whose picker is interrupted by the user. -/
def interruptedOptions (jenkins : Jenkins) : StartPipelineOptions :=
  { bareOptions jenkins with PickNameWithDefault := fun _ _ => .error (.other "interrupt") }

/-! ## Vocabulary for runs of `startJob` -/

/-- The answer to poll `i` (counted from 0) after the trigger, when `startJob`
was entered in the world `w`. -/
def pollAnswer (jenkins : Jenkins) (w : World) (job : Job) (i : Nat) : Build × Option Error :=
  jenkins.GetLastBuild (w.lastBuildCalls + 1 + i) job

/-- The build recorded before the trigger, `previous`. -/
def previousBuild (jenkins : Jenkins) (w : World) (job : Job) : Build :=
  (jenkins.GetLastBuild w.lastBuildCalls job).1

/-- The world after the lookup before the trigger, the trigger, `k` polls each
followed by a sleep, one more poll, and then the events `evs`. -/
def afterPolls (w : World) (job : Job) (k : Nat) (evs : List Event) : World :=
  ⟨w.lastBuildCalls + 1 + k + 1, w.buildCalls + 1,
    w.trace ++ [Event.GetLastBuild job, Event.Build job] ++ waiting job k ++
      Event.GetLastBuild job :: evs⟩

/-- How `startJob` returns once it printed the started build `last`: through
`tailBuild` when `Tail` is set, with success otherwise. -/
def reported (o : StartPipelineOptions) (name : String) (last : Build) (w : World) :
    Option Error × World :=
  if o.Tail then tailBuild o name last w else (none, w)

/-! ## Vocabulary for comparing traversals -/

/-- Two bounded runs ended alike: neither finished within its bound, or both
did, with results related by `R`. -/
def EndAlike (R : State → State → Prop) : Option State → Option State → Prop
  | some a, some b => R a b
  | none, none => True
  | _, _ => False

/-- The state `sf` of a traversal filtering by `f` against the state `se` of the
same traversal without filter: same heap, same client, and the map of `sf` is
the map of `se` cut down to the keys that contain `f`. -/
def Restricts (f : String) (sf se : State) : Prop :=
  sf.2 = se.2 ∧ sf.1.Jobs = se.1.Jobs.filter (fun e => Contains e.1 f) ∧
  sf.1.Filter = f ∧ se.1.Filter = "" ∧ sf.1.JenkinsClient = se.1.JenkinsClient

/-- A folder whose children are absent. -/
def loopFolder : Job := ⟨"loop", "", folderClass, none⟩

/-- A server that answers every fetched name with a folder holding the one child
folder `loopFolder`. -/
def loopJenkins : Jenkins where
  GetJobs := .ok [loopFolder]
  GetJob := fun _ => .ok ⟨"loop", "", folderClass, some [loopFolder]⟩
  GetLastBuild := fun _ _ => (default, some (.other "404"))
  Build := fun _ _ => none
  TailLog := fun _ => none

/-- The forest `b` is the forest of children, inline or fetched, of a node of
the forest `a`; a forest comes with the name it is placed under. -/
def ChildForest (jenkins : Jenkins) (a b : String × List Job) : Prop :=
  ∃ j, j ∈ a.2 ∧ b.1 = jobName a.1 j ∧ children jenkins (jobName a.1 j) j = some b.2

/-- The segment `jobName` appends for the node `j`: its `FullName`, or its
`Name` when that is empty. -/
def ownName (j : Job) : String :=
  if j.FullName = "" then j.Name else j.FullName

/-- The key `k` lies under the folder name `n`: it starts with `n + "/"`. -/
def Under (n k : String) : Bool :=
  decide ((n ++ "/").data <+: k.data)

/-- The place `pfx` is the root, or neither the folder `n` nor under it. -/
def Outside (n pfx : String) : Prop :=
  pfx = "" ∨ ¬ ((n ++ "/").data <+: (pfx ++ "/").data)

/-- A folder `a` whose children are absent. -/
def folderA : Job := ⟨"a", "", folderClass, none⟩

/-- A pipeline listed at the root whose name holds a '/'. -/
def slashed : Job := ⟨"a/b", "", pipelineClass, some []⟩

/-- A folder with the empty name whose children are absent. -/
def nameless : Job := ⟨"", "", folderClass, none⟩

/-- The server `bareJenkins`, except that the fetch of `n` answers a folder
holding the pipeline `svc`. -/
def fetchingJenkins (n : String) : Jenkins :=
  { bareJenkins with
    GetJob := fun m =>
      if m = n then .ok ⟨n, "", folderClass, some [svc]⟩ else bareJenkins.GetJob m }

/-- Root jobs, in the order the server lists them: the folder `lib` holding the
pipeline `master`, the pipeline `master`, and the folder `app` holding the
pipeline `master`. -/
def masterJobs : List Job :=
  [⟨"lib", "", folderClass, some [rootMaster]⟩, rootMaster,
    ⟨"app", "", folderClass, some [rootMaster]⟩]

/-- A server whose lookup before the trigger fails while handing back build 41
(a response cut off after the number was read); the first poll shows 41, the
later ones 42. -/
def staleJenkins : Jenkins where
  GetJobs := .ok [svc]
  GetJob := fun _ => .error (.other "404")
  GetLastBuild := fun n _ =>
    if n = 0 then (⟨41, "http://jenkins/job/41/"⟩, some (.other "unexpected EOF"))
    else if n = 1 then (⟨41, "http://jenkins/job/41/"⟩, none)
    else (⟨42, "http://jenkins/job/42/"⟩, none)
  Build := fun _ _ => none
  TailLog := fun _ => none

/-- A server whose job has never built and whose first build shows late: the
lookup before the trigger and the first two polls fail with the zero `Build`,
then build 1 shows. -/
def slowJenkins : Jenkins where
  GetJobs := .ok [svc]
  GetJob := fun _ => .error (.other "404")
  GetLastBuild := fun n _ =>
    if n ≤ 2 then (default, some (.other "404")) else (⟨1, "http://jenkins/job/1/"⟩, none)
  Build := fun _ _ => none
  TailLog := fun _ => none

/-! ## The tree by its '/'-joined name paths -/

/-- The node `j` of the job tree with the roots `roots`, together with the
'/'-joined path of the `Name`s from a root down to it: the path of a root is
its `Name`, the path of a child is the path of its parent, a '/', and its
`Name`.  The children of a node are those given inline or returned by a
successful fetch of its path. -/
inductive NamePath (jenkins : Jenkins) (roots : List Job) : String → Job → Prop
  | root {j : Job} : j ∈ roots → NamePath jenkins roots j.Name j
  | child {p : String} {j : Job} {js : List Job} {c : Job} :
      NamePath jenkins roots p j → children jenkins p j = some js → c ∈ js →
      NamePath jenkins roots (p ++ "/" ++ c.Name) c

/-- The folder `nested` of the tree `team1`. -/
def nestedFolder : Job := ⟨"nested", "", folderClass, some [serviceB]⟩

/-- A pipeline `svc` whose `FullName` is set. -/
def fullNamedSvc : Job := ⟨"svc", "team1/svc", pipelineClass, some []⟩

/-- Folder `team1` holding the pipeline `svc` whose `FullName` is `team1/svc`. -/
def fullNamed : Job := ⟨"team1", "", folderClass, some [fullNamedSvc]⟩

/-- A root folder with the empty name holding the pipeline `svc`. -/
def namelessFolder : Job := ⟨"", "", folderClass, some [svc]⟩

/-! ## The traversal -/

theorem Desc_nil {jenkins : Jenkins} {pfx k : String} {c : Job} :
    ¬ Desc jenkins pfx [] k c := by
  intro h
  cases h with
  | here h => simp at h
  | under h _ _ => simp at h

theorem Desc_cons {jenkins : Jenkins} {pfx k : String} {j c : Job} {rest : List Job} :
    Desc jenkins pfx (j :: rest) k c ↔
      (k = jobName pfx j ∧ c = j) ∨
      (∃ js, children jenkins (jobName pfx j) j = some js ∧ Desc jenkins (jobName pfx j) js k c) ∨
      Desc jenkins pfx rest k c := by
  constructor
  · intro h
    cases h with
    | here h =>
      rcases List.mem_cons.1 h with h | h
      · subst h; exact Or.inl ⟨rfl, rfl⟩
      · exact Or.inr (Or.inr (Desc.here h))
    | under h hc hd =>
      rcases List.mem_cons.1 h with h | h
      · subst h; exact Or.inr (Or.inl ⟨_, hc, hd⟩)
      · exact Or.inr (Or.inr (Desc.under h hc hd))
  · rintro (⟨rfl, rfl⟩ | ⟨js, hc, hd⟩ | h)
    · exact Desc.here (List.mem_cons_self _ _)
    · exact Desc.under (List.mem_cons_self _ _) hc hd
    · cases h with
      | here h => exact Desc.here (List.mem_cons_of_mem _ h)
      | under h hc hd => exact Desc.under (List.mem_cons_of_mem _ h) hc hd

/-- One iteration of the loop of `addJobs`, with the two ways of finding
children folded into `children`. -/
theorem addJobsLoop_cons (jenkins : Jenkins)
    (recurse : String → List Job → State → Option State)
    (pfx : String) (jp : Ptr) (j : Job) (rest : List Job) (o : StartPipelineOptions)
    (heap : Heap) :
    addJobsLoop jenkins recurse pfx jp (j :: rest) (o, heap) =
      let s1 : State := (if IsPipeline j && passes o.Filter (jobName pfx j)
        then { o with Jobs := (jobName pfx j, jp) :: o.Jobs } else o, heap.set jp j)
      match children jenkins (jobName pfx j) j with
      | some js => (recurse (jobName pfx j) js s1).bind (addJobsLoop jenkins recurse pfx jp rest)
      | none => addJobsLoop jenkins recurse pfx jp rest s1 := by
  simp only [addJobsLoop, children, passes]
  cases hj : j.Jobs with
  | some js => simp only []; cases recurse (jobName pfx j) js _ <;> rfl
  | none =>
    simp only []
    cases hg : jenkins.GetJob (jobName pfx j) with
    | error e => rfl
    | ok job =>
      simp only []
      cases hjj : job.Jobs with
      | none => rfl
      | some js => simp only []; cases recurse (jobName pfx j) js _ <;> rfl

theorem Frame.refl (o : StartPipelineOptions) : Frame o o :=
  ⟨rfl, rfl, rfl, rfl, rfl, rfl⟩

theorem Frame.trans {a b c : StartPipelineOptions} (h1 : Frame a b) (h2 : Frame b c) :
    Frame a c := by
  unfold Frame at h1 h2 ⊢
  refine ⟨?_, ?_, ?_, ?_, ?_, ?_⟩
  · rw [h2.1, h1.1]
  · rw [h2.2.1, h1.2.1]
  · rw [h2.2.2.1, h1.2.2.1]
  · rw [h2.2.2.2.1, h1.2.2.2.1]
  · rw [h2.2.2.2.2.1, h1.2.2.2.2.1]
  · rw [h2.2.2.2.2.2, h1.2.2.2.2.2]

/-- The loop of `addJobs` meets `Adds` when the recursive call does. -/
theorem addJobsLoop_adds (jenkins : Jenkins)
    (recurse : String → List Job → State → Option State)
    (hrec : ∀ name js s s', s.1.JenkinsClient = .ok jenkins →
      recurse name js s = some s' → Adds jenkins name js s s')
    (pfx : String) (jp : Ptr) :
    ∀ (jobs : List Job) (s s' : State), s.1.JenkinsClient = .ok jenkins →
      addJobsLoop jenkins recurse pfx jp jobs s = some s' → Adds jenkins pfx jobs s s' := by
  intro jobs
  induction jobs with
  | nil =>
    intro s s' _ h
    simp only [addJobsLoop, Option.some.injEq] at h
    subst h
    refine ⟨Frame.refl _, fun k => ?_⟩
    constructor
    · exact Or.inl
    · rintro (h | ⟨j, hd, _⟩)
      · exact h
      · exact absurd hd Desc_nil
  | cons j rest ih =>
    rintro ⟨o, heap⟩ s' hcl h
    simp only at hcl
    rw [addJobsLoop_cons] at h
    -- the state after the insertion
    have key : ∀ (s1 : State), s1 = (if IsPipeline j && passes o.Filter (jobName pfx j)
        then { o with Jobs := (jobName pfx j, jp) :: o.Jobs } else o, heap.set jp j) →
        Frame o s1.1 ∧ ∀ k, k ∈ keys s1.1 ↔ k ∈ keys o ∨
          (k = jobName pfx j ∧ IsPipeline j = true ∧ passes o.Filter k = true) := by
      intro s1 hs1
      subst hs1
      by_cases hp : (IsPipeline j && passes o.Filter (jobName pfx j)) = true
      · simp only [hp, if_true]
        refine ⟨Frame.refl _, fun k => ?_⟩
        simp only [Bool.and_eq_true] at hp
        simp only [keys, List.map_cons, List.mem_cons]
        constructor
        · rintro (h | h)
          · subst h; exact Or.inr ⟨rfl, hp.1, hp.2⟩
          · exact Or.inl h
        · rintro (h | ⟨h, _, _⟩)
          · exact Or.inr h
          · exact Or.inl h
      · simp only [hp, Bool.false_eq_true, if_false]
        refine ⟨Frame.refl _, fun k => ?_⟩
        constructor
        · exact Or.inl
        · rintro (h | ⟨h, h1, h2⟩)
          · exact h
          · subst h
            exact absurd (by simp [h1, h2]) hp
    obtain ⟨hf1, hk1⟩ := key _ rfl
    generalize (if IsPipeline j && passes o.Filter (jobName pfx j)
        then { o with Jobs := (jobName pfx j, jp) :: o.Jobs } else o, heap.set jp j) = s1 at h hf1 hk1
    cases hc : children jenkins (jobName pfx j) j with
    | none =>
      simp only [hc] at h
      obtain ⟨hf, hk⟩ := ih s1 s' (hf1.1.trans hcl) h
      refine ⟨hf1.trans hf, fun k => ?_⟩
      rw [hk, hk1, hf1.2.2.2.2.2]
      simp only [Desc_cons, hc]
      constructor
      · rintro ((h | ⟨h1, h2, h3⟩) | ⟨c, hd, h2, h3⟩)
        · exact Or.inl h
        · exact Or.inr ⟨j, Or.inl ⟨h1, rfl⟩, h2, h3⟩
        · exact Or.inr ⟨c, Or.inr (Or.inr hd), h2, h3⟩
      · rintro (h | ⟨c, (⟨h1, rfl⟩ | ⟨js, hjs, _⟩ | hd), h2, h3⟩)
        · exact Or.inl (Or.inl h)
        · exact Or.inl (Or.inr ⟨h1, h2, h3⟩)
        · exact absurd hjs (by simp)
        · exact Or.inr ⟨c, hd, h2, h3⟩
    | some js =>
      simp only [hc] at h
      obtain ⟨s2, hr, hl⟩ := Option.bind_eq_some.1 h
      obtain ⟨hf2, hk2⟩ := hrec _ _ _ _ (hf1.1.trans hcl) hr
      obtain ⟨hf, hk⟩ := ih s2 s' (hf2.1.trans (hf1.1.trans hcl)) hl
      refine ⟨(hf1.trans hf2).trans hf, fun k => ?_⟩
      rw [hk, hk2, hk1, hf2.2.2.2.2.2, hf1.2.2.2.2.2]
      simp only [Desc_cons, hc, Option.some.injEq]
      constructor
      · rintro (((h | ⟨h1, h2, h3⟩) | ⟨c, hd, h2, h3⟩) | ⟨c, hd, h2, h3⟩)
        · exact Or.inl h
        · exact Or.inr ⟨j, Or.inl ⟨h1, rfl⟩, h2, h3⟩
        · exact Or.inr ⟨c, Or.inr (Or.inl ⟨js, rfl, hd⟩), h2, h3⟩
        · exact Or.inr ⟨c, Or.inr (Or.inr hd), h2, h3⟩
      · rintro (h | ⟨c, (⟨h1, rfl⟩ | ⟨js', rfl, hd⟩ | hd), h2, h3⟩)
        · exact Or.inl (Or.inl (Or.inl h))
        · exact Or.inl (Or.inl (Or.inr ⟨h1, h2, h3⟩))
        · exact Or.inl (Or.inr ⟨c, hd, h2, h3⟩)
        · exact Or.inr ⟨c, hd, h2, h3⟩

/-- A traversal that ends adds exactly the pipeline nodes passing the filter. -/
theorem addJobs_adds (jenkins : Jenkins) :
    ∀ (n : Nat) (pfx : String) (jobs : List Job) (s s' : State),
      s.1.JenkinsClient = .ok jenkins →
      addJobs n pfx jobs s = some s' → Adds jenkins pfx jobs s s' := by
  intro n
  induction n with
  | zero => intro pfx jobs s s' _ h; simp [addJobs] at h
  | succ n ih =>
    rintro pfx jobs ⟨o, heap⟩ s' hc h
    simp only at hc
    simp only [addJobs, hc] at h
    exact addJobsLoop_adds jenkins (addJobs n) (fun name js s s' => ih name js s s')
      pfx heap.length jobs (o, heap ++ [default]) s' hc h

/-- Raising the bound of the recursive call keeps a finished loop's result. -/
theorem addJobsLoop_mono (jenkins : Jenkins)
    (r1 r2 : String → List Job → State → Option State)
    (hr : ∀ name js s s', r1 name js s = some s' → r2 name js s = some s')
    (pfx : String) (jp : Ptr) :
    ∀ (jobs : List Job) (s s' : State),
      addJobsLoop jenkins r1 pfx jp jobs s = some s' →
      addJobsLoop jenkins r2 pfx jp jobs s = some s' := by
  intro jobs
  induction jobs with
  | nil => intro s s' h; simpa [addJobsLoop] using h
  | cons j rest ih =>
    rintro ⟨o, heap⟩ s' h
    rw [addJobsLoop_cons] at h ⊢
    cases hc : children jenkins (jobName pfx j) j with
    | none => simp only [hc] at h ⊢; exact ih _ _ h
    | some js =>
      simp only [hc] at h ⊢
      obtain ⟨s2, h1, h2⟩ := Option.bind_eq_some.1 h
      exact Option.bind_eq_some.2 ⟨s2, hr _ _ _ _ h1, ih _ _ h2⟩

/-- A traversal that ends within depth `n` ends the same way within depth `n + 1`. -/
theorem addJobs_succ :
    ∀ (n : Nat) (pfx : String) (jobs : List Job) (s s' : State),
      addJobs n pfx jobs s = some s' → addJobs (n + 1) pfx jobs s = some s' := by
  intro n
  induction n with
  | zero => intro pfx jobs s s' h; simp [addJobs] at h
  | succ n ih =>
    rintro pfx jobs ⟨o, heap⟩ s' h
    rw [addJobs] at h ⊢
    cases hc : o.JenkinsClient with
    | error e => simpa [hc] using h
    | ok jenkins =>
      simp only [hc] at h ⊢
      exact addJobsLoop_mono jenkins _ _ ih _ _ _ _ _ h

theorem addJobs_le {n m : Nat} (hnm : n ≤ m) {pfx : String} {jobs : List Job} {s s' : State}
    (h : addJobs n pfx jobs s = some s') : addJobs m pfx jobs s = some s' := by
  induction hnm with
  | refl => exact h
  | step _ ih => exact addJobs_succ _ _ _ _ _ ih

/-- The loop ends when the recursive call ends on the children of every node. -/
theorem addJobsLoop_ends (jenkins : Jenkins)
    (recurse : String → List Job → State → Option State)
    (hadds : ∀ name js s s', s.1.JenkinsClient = .ok jenkins →
      recurse name js s = some s' → Adds jenkins name js s s')
    (pfx : String) (jp : Ptr) :
    ∀ (jobs : List Job),
      (∀ j ∈ jobs, ∀ js, children jenkins (jobName pfx j) j = some js →
        ∀ s : State, s.1.JenkinsClient = .ok jenkins → ∃ s', recurse (jobName pfx j) js s = some s') →
      ∀ s : State, s.1.JenkinsClient = .ok jenkins →
        ∃ s', addJobsLoop jenkins recurse pfx jp jobs s = some s' := by
  intro jobs
  induction jobs with
  | nil => intro _ s _; exact ⟨s, rfl⟩
  | cons j rest ih =>
    rintro hrec ⟨o, heap⟩ hcl
    simp only at hcl
    have hrest := ih (fun j hj => hrec j (List.mem_cons_of_mem _ hj))
    rw [addJobsLoop_cons]
    have h1 : (if IsPipeline j && passes o.Filter (jobName pfx j)
        then { o with Jobs := (jobName pfx j, jp) :: o.Jobs } else o).JenkinsClient
          = .ok jenkins := by
      split <;> exact hcl
    cases hc : children jenkins (jobName pfx j) j with
    | none => exact hrest _ h1
    | some js =>
      obtain ⟨s2, h2⟩ := hrec j (List.mem_cons_self _ _) js hc (_, heap.set jp j) h1
      obtain ⟨s3, h3⟩ := hrest s2 ((hadds _ _ _ _ h1 h2).1.1.trans h1)
      exact ⟨s3, Option.bind_eq_some.2 ⟨s2, h2, h3⟩⟩

/-- On a finite forest the traversal ends within some depth, whatever the map
and the heap hold when it starts. -/
theorem addJobs_ends (jenkins : Jenkins) {pfx : String} {jobs : List Job}
    (hfin : FiniteForest jenkins pfx jobs) :
    ∃ n, ∀ s : State, s.1.JenkinsClient = .ok jenkins → ∃ s', addJobs n pfx jobs s = some s' := by
  induction hfin with
  | @intro pfx jobs _ ih =>
    -- one depth that serves every node of `jobs`
    have huni : ∀ l : List Job, (∀ j ∈ l, j ∈ jobs) → ∃ N, ∀ j ∈ l, ∀ js,
        children jenkins (jobName pfx j) j = some js →
        ∀ s : State, s.1.JenkinsClient = .ok jenkins →
          ∃ s', addJobs N (jobName pfx j) js s = some s' := by
      intro l
      induction l with
      | nil => intro _; exact ⟨0, fun j hj => absurd hj (List.not_mem_nil _)⟩
      | cons a l ihl =>
        intro hsub
        obtain ⟨N, hN⟩ := ihl (fun j hj => hsub j (List.mem_cons_of_mem _ hj))
        cases hc : children jenkins (jobName pfx a) a with
        | none =>
          refine ⟨N, fun j hj js hjs s hs => ?_⟩
          rcases List.mem_cons.1 hj with rfl | hj
          · rw [hc] at hjs; exact absurd hjs (by simp)
          · exact hN j hj js hjs s hs
        | some as =>
          obtain ⟨M, hM⟩ := ih a (hsub a (List.mem_cons_self _ _)) as hc
          refine ⟨max N M, fun j hj js hjs s hs => ?_⟩
          rcases List.mem_cons.1 hj with rfl | hj
          · rw [hc] at hjs
            cases hjs
            obtain ⟨s', h'⟩ := hM s hs
            exact ⟨s', addJobs_le (le_max_right _ _) h'⟩
          · obtain ⟨s', h'⟩ := hN j hj js hjs s hs
            exact ⟨s', addJobs_le (le_max_left _ _) h'⟩
    obtain ⟨N, hN⟩ := huni jobs (fun _ h => h)
    refine ⟨N + 1, ?_⟩
    rintro ⟨o, heap⟩ hcl
    simp only at hcl
    simp only [addJobs, hcl]
    exact addJobsLoop_ends jenkins (addJobs N) (fun name js s s' => addJobs_adds jenkins N name js s s')
      pfx heap.length jobs hN (o, heap ++ [default]) hcl

theorem FiniteForest_nil {jenkins : Jenkins} {pfx : String} : FiniteForest jenkins pfx [] :=
  FiniteForest.intro (fun _ hj => absurd hj (List.not_mem_nil _))

theorem FiniteForest_cons {jenkins : Jenkins} {pfx : String} {j : Job} {rest : List Job}
    (hj : ∀ js, children jenkins (jobName pfx j) j = some js → FiniteForest jenkins (jobName pfx j) js)
    (hrest : FiniteForest jenkins pfx rest) : FiniteForest jenkins pfx (j :: rest) := by
  cases hrest with
  | intro h =>
    refine FiniteForest.intro (fun a ha js hjs => ?_)
    rcases List.mem_cons.1 ha with rfl | ha
    · exact hj js hjs
    · exact h a ha js hjs

/-! ## The keys of the catalog, by the code's own names -/

/-- With no filter and a client at hand, on every finite forest `addJobs ""`
run on an empty map ends, at every depth bound from some bound on, and the
keys of the map are the names that `jobName` gives the pipeline-classified
nodes. -/
theorem addJobs_keys_are_pipeline_paths (jenkins : Jenkins) (o : StartPipelineOptions)
    (heap : Heap) (roots : List Job)
    (hclient : o.JenkinsClient = .ok jenkins) (hfilter : o.Filter = "") (hempty : o.Jobs = [])
    (hfin : FiniteForest jenkins "" roots) :
    ∃ n, ∀ m, n ≤ m → ∃ s', addJobs m "" roots (o, heap) = some s' ∧
      ∀ k, k ∈ keys s'.1 ↔ ∃ j, Desc jenkins "" roots k j ∧ IsPipeline j = true := by
  obtain ⟨n, hn⟩ := addJobs_ends jenkins hfin
  refine ⟨n, fun m hm => ?_⟩
  obtain ⟨s', hs'⟩ := hn (o, heap) hclient
  have hm' := addJobs_le hm hs'
  refine ⟨s', hm', fun k => ?_⟩
  rw [(addJobs_adds jenkins m "" roots (o, heap) s' hclient hm').2 k]
  simp [keys, hempty, hfilter, passes]

/-! ## The polling loop -/

/-- One iteration of the polling loop. -/
theorem pollLoop_succ (o : StartPipelineOptions) (jenkins : Jenkins) (name : String) (job : Job)
    (previous : Build) (fuel i : Nat) (w : World) :
    pollLoop o jenkins name job previous (fuel + 1) i w =
      if 0 < i ∧ (jenkins.GetLastBuild w.lastBuildCalls job).2 ≠ none then
        some ((jenkins.GetLastBuild w.lastBuildCalls job).2,
          ⟨w.lastBuildCalls + 1, w.buildCalls, w.trace ++ [Event.GetLastBuild job]⟩)
      else if (jenkins.GetLastBuild w.lastBuildCalls job).1.Number ≠ previous.Number then
        (if o.Tail then
          some (tailBuild o name (jenkins.GetLastBuild w.lastBuildCalls job).1
            ⟨w.lastBuildCalls + 1, w.buildCalls, w.trace ++ [Event.GetLastBuild job,
              Event.Started name (jenkins.GetLastBuild w.lastBuildCalls job).1]⟩)
        else
          some (none, ⟨w.lastBuildCalls + 1, w.buildCalls, w.trace ++ [Event.GetLastBuild job,
              Event.Started name (jenkins.GetLastBuild w.lastBuildCalls job).1]⟩))
      else
        pollLoop o jenkins name job previous fuel (i + 1)
          ⟨w.lastBuildCalls + 1, w.buildCalls,
            w.trace ++ [Event.GetLastBuild job, Event.Sleep]⟩ := by
  simp only [pollLoop, getLastBuild, World.emit, List.append_assoc, List.singleton_append,
    gt_iff_lt]

/-- Source: `startJob`, once the job is found, the client is at hand and the
trigger went through. -/
theorem startJob_triggered (o : StartPipelineOptions) (heap : Heap) (fuel : Nat) (name : String)
    (allNames : List String) (w : World) (jenkins : Jenkins) (p : Ptr)
    (hjob : o.Jobs.lookup name = some p) (hclient : o.JenkinsClient = .ok jenkins)
    (htrigger : jenkins.Build w.buildCalls (heap.getD p default) = none) :
    startJob o heap fuel name allNames w =
      pollLoop o jenkins name (heap.getD p default)
        (jenkins.GetLastBuild w.lastBuildCalls (heap.getD p default)).1 fuel 0
        ⟨w.lastBuildCalls + 1, w.buildCalls + 1,
          w.trace ++ [Event.GetLastBuild (heap.getD p default),
            Event.Build (heap.getD p default)]⟩ := by
  simp only [startJob, hjob, hclient, getLastBuild, build, htrigger, List.append_assoc,
    List.singleton_append]

/-- While the polls find nothing new and do not fail past the first
iteration, the loop sleeps and polls again. -/
theorem pollLoop_waits (o : StartPipelineOptions) (jenkins : Jenkins) (name : String) (job : Job)
    (previous : Build) (fuel : Nat) :
    ∀ (k i : Nat) (w : World),
      (∀ j, j < k →
        (jenkins.GetLastBuild (w.lastBuildCalls + j) job).1.Number = previous.Number ∧
        (0 < i + j → (jenkins.GetLastBuild (w.lastBuildCalls + j) job).2 = none)) →
      pollLoop o jenkins name job previous (k + fuel) i w =
        pollLoop o jenkins name job previous fuel (i + k)
          ⟨w.lastBuildCalls + k, w.buildCalls, w.trace ++ waiting job k⟩ := by
  intro k
  induction k with
  | zero => intro i w _; simp [waiting]
  | succ k ih =>
    intro i w h
    have h0 := h 0 (Nat.succ_pos k)
    simp only [Nat.add_zero] at h0
    rw [show k + 1 + fuel = (k + fuel) + 1 by omega, pollLoop_succ]
    have hno : ¬ (0 < i ∧ (jenkins.GetLastBuild w.lastBuildCalls job).2 ≠ none) :=
      fun hc => hc.2 (h0.2 hc.1)
    rw [if_neg hno, if_neg (not_not.2 h0.1), ih]
    · simp only [waiting, List.append_assoc, List.cons_append, List.nil_append]
      rw [show i + 1 + k = i + (k + 1) by omega,
        show w.lastBuildCalls + 1 + k = w.lastBuildCalls + (k + 1) by omega]
    · intro j hj
      have hj' := h (j + 1) (by omega)
      simp only at hj' ⊢
      rw [show w.lastBuildCalls + 1 + j = w.lastBuildCalls + (j + 1) by omega]
      exact ⟨hj'.1, fun _ => hj'.2 (by omega)⟩

/-- Every way the polling loop can return: after `k` polls that found nothing
new, poll `k` either fails past the first iteration, and its error is
returned, or shows a different number, and its build is reported. -/
theorem pollLoop_outcome (o : StartPipelineOptions) (jenkins : Jenkins) (name : String)
    (job : Job) (previous : Build) :
    ∀ (fuel i : Nat) (w : World) (r : Option Error) (w' : World),
      pollLoop o jenkins name job previous fuel i w = some (r, w') →
      ∃ k, k < fuel ∧
        (∀ j, j < k →
          (jenkins.GetLastBuild (w.lastBuildCalls + j) job).1.Number = previous.Number ∧
          (0 < i + j → (jenkins.GetLastBuild (w.lastBuildCalls + j) job).2 = none)) ∧
        ((0 < i + k ∧ (jenkins.GetLastBuild (w.lastBuildCalls + k) job).2 ≠ none ∧
            r = (jenkins.GetLastBuild (w.lastBuildCalls + k) job).2 ∧
            w' = ⟨w.lastBuildCalls + k + 1, w.buildCalls,
              w.trace ++ waiting job k ++ [Event.GetLastBuild job]⟩) ∨
         ((jenkins.GetLastBuild (w.lastBuildCalls + k) job).1.Number ≠ previous.Number ∧
            (r, w') =
              if o.Tail then
                tailBuild o name (jenkins.GetLastBuild (w.lastBuildCalls + k) job).1
                  ⟨w.lastBuildCalls + k + 1, w.buildCalls,
                    w.trace ++ waiting job k ++ [Event.GetLastBuild job,
                      Event.Started name (jenkins.GetLastBuild (w.lastBuildCalls + k) job).1]⟩
              else
                (none, ⟨w.lastBuildCalls + k + 1, w.buildCalls,
                    w.trace ++ waiting job k ++ [Event.GetLastBuild job,
                      Event.Started name
                        (jenkins.GetLastBuild (w.lastBuildCalls + k) job).1]⟩))) := by
  intro fuel
  induction fuel with
  | zero => intro i w r w' h; simp [pollLoop] at h
  | succ fuel ih =>
    intro i w r w' h
    rw [pollLoop_succ] at h
    by_cases hfail : 0 < i ∧ (jenkins.GetLastBuild w.lastBuildCalls job).2 ≠ none
    · rw [if_pos hfail] at h
      simp only [Option.some.injEq, Prod.mk.injEq] at h
      refine ⟨0, Nat.succ_pos _, fun j hj => absurd hj (Nat.not_lt_zero _), Or.inl ?_⟩
      simp only [Nat.add_zero, waiting, List.append_nil]
      exact ⟨hfail.1, hfail.2, h.1.symm, h.2.symm⟩
    · rw [if_neg hfail] at h
      by_cases hnew : (jenkins.GetLastBuild w.lastBuildCalls job).1.Number ≠ previous.Number
      · rw [if_pos hnew] at h
        refine ⟨0, Nat.succ_pos _, fun j hj => absurd hj (Nat.not_lt_zero _), Or.inr ?_⟩
        simp only [Nat.add_zero, waiting, List.append_nil]
        refine ⟨hnew, ?_⟩
        by_cases ht : o.Tail = true
        · simp only [ht, if_true, Option.some.injEq] at h ⊢
          exact h.symm
        · simp only [ht, Bool.false_eq_true, if_false, Option.some.injEq] at h ⊢
          exact h.symm
      · rw [if_neg hnew] at h
        obtain ⟨k, hk, hwait, hout⟩ := ih _ _ _ _ h
        simp only at hwait hout
        have e1 : ∀ j, w.lastBuildCalls + 1 + j = w.lastBuildCalls + (j + 1) := by
          intro j; omega
        have e2 : ∀ l : List Event, w.trace ++ [Event.GetLastBuild job, Event.Sleep] ++
            waiting job k ++ l = w.trace ++ waiting job (k + 1) ++ l := by
          intro l; simp [waiting]
        refine ⟨k + 1, Nat.succ_lt_succ hk, ?_, ?_⟩
        · intro j hj
          cases j with
          | zero =>
            simp only [Nat.add_zero]
            refine ⟨not_not.1 hnew, fun hi => ?_⟩
            by_contra hne
            exact hfail ⟨hi, hne⟩
          | succ j =>
            have := hwait j (by omega)
            rw [e1] at this
            exact ⟨this.1, fun _ => this.2 (by omega)⟩
        · rw [e1, e2, e2] at hout
          rcases hout with ⟨h1, h2, h3, h4⟩ | ⟨h1, h2⟩
          · exact Or.inl ⟨by omega, h2, h3, h4⟩
          · exact Or.inr ⟨h1, h2⟩

/-! ## C2 -/

/-- C2, the code at the failing input: the job's last build is 41, the trigger
goes through and the first poll after it fails, handing back the zero `Build`
with its error.  `startJob` returns success and reports that zero `Build`
(number 0, empty URL) as the started build: the result of the failed poll is
not ignored. -/
theorem startJob_reports_failed_first_poll :
    flakyJenkins.GetLastBuild 1 svc = (⟨0, ""⟩, some (Error.other "connection reset")) ∧
    startJob (svcOptions flakyJenkins) [svc] 5 "svc" ["svc"] World.start =
      some (none, ⟨2, 1, [Event.GetLastBuild svc, Event.Build svc, Event.GetLastBuild svc,
        Event.Started "svc" ⟨0, ""⟩]⟩) :=
  ⟨rfl, rfl⟩

/-! ## C3 -/

/-- C3, the code at the failing input: with the sibling pipelines `service-a`
and `service-b` at the root, the map built by `addJobs` stores under the key
`service-a` the address of the loop variable, which holds `service-b` once the
loop is over; `Run` with the argument `service-a` then looks up, triggers and
polls `service-b`. -/
theorem addJobs_stores_last_sibling :
    jobName "" serviceA = "service-a" ∧
    (addJobs 2 "" [serviceA, serviceB] (bareOptions bareJenkins, [])).map
      (fun s => (s.1.Jobs, lookupJob s.1 s.2 "service-a"))
      = some ([("service-b", 0), ("service-a", 0)], some serviceB) ∧
    Run { bareOptions (steadyJenkins [serviceA, serviceB]) with Args := ["service-a"] } 2
      World.start =
      some (none, ⟨3, 1, [Event.GetLastBuild serviceB, Event.Build serviceB,
        Event.GetLastBuild serviceB, Event.Sleep, Event.GetLastBuild serviceB,
        Event.Started "service-a" ⟨42, "http://jenkins/job/42/"⟩]⟩) :=
  ⟨rfl, rfl, rfl⟩

/-! ## C4 -/

/-- No `Started` event among polls that found nothing new. -/
theorem not_started_mem_waiting (job : Job) (n : String) (b : Build) :
    ∀ k, Event.Started n b ∉ waiting job k := by
  intro k
  induction k with
  | zero => simp [waiting]
  | succ k ih => simp [waiting, ih]

/-- Source: `tailBuild` adds no `Started` event and makes no request that the
world counts. -/
theorem tailBuild_trace (o : StartPipelineOptions) (name : String) (b : Build) (w : World) :
    ∃ evs, (tailBuild o name b w).2 = ⟨w.lastBuildCalls, w.buildCalls, w.trace ++ evs⟩ ∧
      ∀ n' b', Event.Started n' b' ∉ evs := by
  unfold tailBuild
  cases o.JenkinsClient with
  | error e => exact ⟨[], by simp, by simp⟩
  | ok jenkins =>
    cases o.urlPath b.Url with
    | error e => exact ⟨[], by simp, by simp⟩
    | ok path =>
      exact ⟨[Event.Tailing name b, Event.TailLog path], by simp [World.emit], by simp⟩

/-- C4: for every job in the map, every client and so every previous build and
every sequence of answers to `GetLastBuild`: whenever `startJob` returns, each
build it reported as started has a `Number` different from that of the build
recorded before the trigger. -/
theorem startJob_reported_number_differs (o : StartPipelineOptions) (heap : Heap) (fuel : Nat)
    (name : String) (allNames : List String) (w : World) (jenkins : Jenkins) (p : Ptr)
    (r : Option Error) (w' : World)
    (hjob : o.Jobs.lookup name = some p) (hclient : o.JenkinsClient = .ok jenkins)
    (hrun : startJob o heap fuel name allNames w = some (r, w')) :
    ∃ evs, w'.trace = w.trace ++ evs ∧
      ∀ n b, Event.Started n b ∈ evs →
        b.Number ≠ (jenkins.GetLastBuild w.lastBuildCalls (heap.getD p default)).1.Number := by
  cases htrigger : jenkins.Build w.buildCalls (heap.getD p default) with
  | some e =>
    simp only [startJob, hjob, hclient, getLastBuild, build, htrigger, Option.some.injEq,
      Prod.mk.injEq] at hrun
    refine ⟨[Event.GetLastBuild (heap.getD p default), Event.Build (heap.getD p default)], ?_, ?_⟩
    · rw [← hrun.2]; simp
    · intro n b hb; simp at hb
  | none =>
    rw [startJob_triggered o heap fuel name allNames w jenkins p hjob hclient htrigger] at hrun
    obtain ⟨k, _, _, hout⟩ := pollLoop_outcome _ _ _ _ _ _ _ _ _ _ hrun
    simp only at hout
    rcases hout with ⟨_, _, _, hw'⟩ | ⟨hne, hres⟩
    · refine ⟨_, by rw [hw']; simp only [List.append_assoc]; rfl, ?_⟩
      intro n b hb
      simp only [List.mem_append, List.mem_cons, List.mem_singleton, List.not_mem_nil,
        or_false, false_or, reduceCtorEq] at hb
      exact absurd hb (not_started_mem_waiting _ _ _ _)
    · by_cases ht : o.Tail = true
      · simp only [ht, if_true] at hres
        obtain ⟨evs, hevs, hno⟩ := tailBuild_trace o name
          (jenkins.GetLastBuild (w.lastBuildCalls + 1 + k) (heap.getD p default)).1
          ⟨w.lastBuildCalls + 1 + k + 1, w.buildCalls + 1,
            w.trace ++ [Event.GetLastBuild (heap.getD p default),
              Event.Build (heap.getD p default)] ++ waiting (heap.getD p default) k ++
              [Event.GetLastBuild (heap.getD p default), Event.Started name
                (jenkins.GetLastBuild (w.lastBuildCalls + 1 + k) (heap.getD p default)).1]⟩
        rw [← hres] at hevs
        simp only at hevs
        refine ⟨_, by rw [hevs]; simp only [List.append_assoc]; rfl, ?_⟩
        intro n b hb
        simp only [List.mem_append, List.mem_cons, List.mem_singleton, List.not_mem_nil,
          or_false, false_or, reduceCtorEq, Event.Started.injEq] at hb
        rcases hb with hb | hb | hb
        · exact absurd hb (not_started_mem_waiting _ _ _ _)
        · rw [hb.2]; exact hne
        · exact absurd hb (hno _ _)
      · simp only [ht, Bool.false_eq_true, if_false, Prod.mk.injEq] at hres
        refine ⟨_, by rw [hres.2]; simp only [List.append_assoc]; rfl, ?_⟩
        intro n b hb
        simp only [List.mem_append, List.mem_cons, List.mem_singleton, List.not_mem_nil,
          or_false, false_or, reduceCtorEq, Event.Started.injEq] at hb
        rcases hb with hb | hb
        · exact absurd hb (not_started_mem_waiting _ _ _ _)
        · rw [hb.2]; exact hne

/-- C4, witness: last build 41, polls answering 41 and then 42: build 42 is
reported, and 42 differs from 41. -/
theorem startJob_reported_number_differs_witness :
    startJob (svcOptions (steadyJenkins [svc])) [svc] 5 "svc" ["svc"] World.start =
      some (none, ⟨3, 1, [Event.GetLastBuild svc, Event.Build svc, Event.GetLastBuild svc,
        Event.Sleep, Event.GetLastBuild svc,
        Event.Started "svc" ⟨42, "http://jenkins/job/42/"⟩]⟩) ∧
    ∃ evs, [Event.GetLastBuild svc, Event.Build svc, Event.GetLastBuild svc,
        Event.Sleep, Event.GetLastBuild svc,
        Event.Started "svc" ⟨42, "http://jenkins/job/42/"⟩] = [] ++ evs ∧
      ∀ n b, Event.Started n b ∈ evs → b.Number ≠ 41 :=
  ⟨rfl, startJob_reported_number_differs (svcOptions (steadyJenkins [svc])) [svc] 5 "svc" ["svc"]
    World.start (steadyJenkins [svc]) 0 none _ rfl rfl rfl⟩

/-! ## Runs of `startJob` past the trigger -/

/-- Every way `startJob` can return once the trigger went through. -/
theorem startJob_outcome (o : StartPipelineOptions) (heap : Heap) (fuel : Nat) (name : String)
    (allNames : List String) (w : World) (jenkins : Jenkins) (p : Ptr)
    (r : Option Error) (w' : World)
    (hjob : o.Jobs.lookup name = some p) (hclient : o.JenkinsClient = .ok jenkins)
    (htrigger : jenkins.Build w.buildCalls (heap.getD p default) = none)
    (hrun : startJob o heap fuel name allNames w = some (r, w')) :
    ∃ i, i < fuel ∧
      ((1 ≤ i ∧ (pollAnswer jenkins w (heap.getD p default) i).2 ≠ none ∧
          r = (pollAnswer jenkins w (heap.getD p default) i).2 ∧
          w' = afterPolls w (heap.getD p default) i []) ∨
       ((pollAnswer jenkins w (heap.getD p default) i).1.Number
            ≠ (previousBuild jenkins w (heap.getD p default)).Number ∧
          (r, w') = reported o name (pollAnswer jenkins w (heap.getD p default) i).1
            (afterPolls w (heap.getD p default) i
              [Event.Started name (pollAnswer jenkins w (heap.getD p default) i).1]))) := by
  rw [startJob_triggered o heap fuel name allNames w jenkins p hjob hclient htrigger] at hrun
  obtain ⟨k, hk, _, hout⟩ := pollLoop_outcome _ _ _ _ _ _ _ _ _ _ hrun
  refine ⟨k, hk, ?_⟩
  rcases hout with ⟨h1, h2, h3, h4⟩ | ⟨h1, h2⟩
  · exact Or.inl ⟨by omega, h2, h3, h4⟩
  · exact Or.inr ⟨h1, h2⟩

/-- After the trigger, polls `0 .. k-1` that show the previous number (and, past
poll 0, do not fail) lead `startJob` to poll `k`. -/
theorem startJob_reaches (o : StartPipelineOptions) (heap : Heap) (name : String)
    (allNames : List String) (w : World) (jenkins : Jenkins) (p : Ptr) (k fuel : Nat)
    (hjob : o.Jobs.lookup name = some p) (hclient : o.JenkinsClient = .ok jenkins)
    (htrigger : jenkins.Build w.buildCalls (heap.getD p default) = none)
    (hidle : ∀ j, j < k →
      (pollAnswer jenkins w (heap.getD p default) j).1.Number
        = (previousBuild jenkins w (heap.getD p default)).Number ∧
      (0 < j → (pollAnswer jenkins w (heap.getD p default) j).2 = none)) :
    startJob o heap (k + fuel) name allNames w =
      pollLoop o jenkins name (heap.getD p default)
        (previousBuild jenkins w (heap.getD p default)) fuel k
        ⟨w.lastBuildCalls + 1 + k, w.buildCalls + 1,
          w.trace ++ [Event.GetLastBuild (heap.getD p default),
            Event.Build (heap.getD p default)] ++ waiting (heap.getD p default) k⟩ := by
  rw [startJob_triggered o heap _ name allNames w jenkins p hjob hclient htrigger,
    pollLoop_waits o jenkins name _ _ fuel k 0 _ ?_]
  · simp only [Nat.zero_add, previousBuild]
  · intro j hj
    have := hidle j hj
    simp only [Nat.zero_add]
    exact this

/-- Poll `k`, once reached, showing a new number without a failure that counts
makes `startJob` report its build. -/
theorem startJob_resolves (o : StartPipelineOptions) (heap : Heap) (name : String)
    (allNames : List String) (w : World) (jenkins : Jenkins) (p : Ptr) (k fuel : Nat)
    (hjob : o.Jobs.lookup name = some p) (hclient : o.JenkinsClient = .ok jenkins)
    (htrigger : jenkins.Build w.buildCalls (heap.getD p default) = none)
    (hidle : ∀ j, j < k →
      (pollAnswer jenkins w (heap.getD p default) j).1.Number
        = (previousBuild jenkins w (heap.getD p default)).Number ∧
      (0 < j → (pollAnswer jenkins w (heap.getD p default) j).2 = none))
    (hok : 0 < k → (pollAnswer jenkins w (heap.getD p default) k).2 = none)
    (hnew : (pollAnswer jenkins w (heap.getD p default) k).1.Number
      ≠ (previousBuild jenkins w (heap.getD p default)).Number)
    (hfuel : k < fuel) :
    startJob o heap fuel name allNames w =
      some (reported o name (pollAnswer jenkins w (heap.getD p default) k).1
        (afterPolls w (heap.getD p default) k
          [Event.Started name (pollAnswer jenkins w (heap.getD p default) k).1])) := by
  obtain ⟨f, rfl⟩ : ∃ f, fuel = k + (f + 1) := ⟨fuel - k - 1, by omega⟩
  rw [startJob_reaches o heap name allNames w jenkins p k (f + 1) hjob hclient htrigger hidle,
    pollLoop_succ]
  have hno : ¬ (0 < k ∧ (jenkins.GetLastBuild (w.lastBuildCalls + 1 + k)
      (heap.getD p default)).2 ≠ none) := fun hc => hc.2 (hok hc.1)
  have hnew' : (jenkins.GetLastBuild (w.lastBuildCalls + 1 + k) (heap.getD p default)).1.Number
      ≠ (previousBuild jenkins w (heap.getD p default)).Number := hnew
  simp only at hno ⊢
  rw [if_neg hno, if_pos hnew']
  simp only [reported, afterPolls, pollAnswer, List.append_assoc, List.cons_append,
    List.nil_append]
  split <;> rfl

/-- Poll `k ≥ 1`, once reached, failing makes `startJob` return its error. -/
theorem startJob_fails (o : StartPipelineOptions) (heap : Heap) (name : String)
    (allNames : List String) (w : World) (jenkins : Jenkins) (p : Ptr) (k fuel : Nat) (e : Error)
    (hjob : o.Jobs.lookup name = some p) (hclient : o.JenkinsClient = .ok jenkins)
    (htrigger : jenkins.Build w.buildCalls (heap.getD p default) = none)
    (hidle : ∀ j, j < k →
      (pollAnswer jenkins w (heap.getD p default) j).1.Number
        = (previousBuild jenkins w (heap.getD p default)).Number ∧
      (0 < j → (pollAnswer jenkins w (heap.getD p default) j).2 = none))
    (hk : 1 ≤ k) (hfail : (pollAnswer jenkins w (heap.getD p default) k).2 = some e)
    (hfuel : k < fuel) :
    startJob o heap fuel name allNames w =
      some (some e, afterPolls w (heap.getD p default) k []) := by
  obtain ⟨f, rfl⟩ : ∃ f, fuel = k + (f + 1) := ⟨fuel - k - 1, by omega⟩
  rw [startJob_reaches o heap name allNames w jenkins p k (f + 1) hjob hclient htrigger hidle,
    pollLoop_succ]
  have hyes : 0 < k ∧ (jenkins.GetLastBuild (w.lastBuildCalls + 1 + k)
      (heap.getD p default)).2 ≠ none := by
    refine ⟨hk, ?_⟩
    have := hfail
    simp only [pollAnswer] at this
    rw [this]; simp
  simp only at hyes ⊢
  rw [if_pos hyes]
  simp only [afterPolls, ← hfail, pollAnswer, List.append_assoc, List.cons_append,
    List.nil_append]

/-! ## C5 -/

/-- C5: once the trigger went through, (1) whenever `startJob` returns, it
either returns the error of a failed poll `i` with `i ≥ 1`, right after that
poll and with no build reported, or it returns from the branch that reports a
build, so a failure of poll 0 is never what it returns; and (2) when polls
`0 .. i-1` resolved nothing and poll `i ≥ 1` fails with `e`, `startJob`
returns exactly `e`, its last action being poll `i`. -/
theorem startJob_poll_failure (o : StartPipelineOptions) (heap : Heap) (name : String)
    (allNames : List String) (w : World) (jenkins : Jenkins) (p : Ptr)
    (hjob : o.Jobs.lookup name = some p) (hclient : o.JenkinsClient = .ok jenkins)
    (htrigger : jenkins.Build w.buildCalls (heap.getD p default) = none) :
    (∀ fuel r w', startJob o heap fuel name allNames w = some (r, w') →
      ∃ i, i < fuel ∧
        ((1 ≤ i ∧ (pollAnswer jenkins w (heap.getD p default) i).2 ≠ none ∧
            r = (pollAnswer jenkins w (heap.getD p default) i).2 ∧
            w' = afterPolls w (heap.getD p default) i []) ∨
         ((pollAnswer jenkins w (heap.getD p default) i).1.Number
              ≠ (previousBuild jenkins w (heap.getD p default)).Number ∧
            (r, w') = reported o name (pollAnswer jenkins w (heap.getD p default) i).1
              (afterPolls w (heap.getD p default) i
                [Event.Started name (pollAnswer jenkins w (heap.getD p default) i).1])))) ∧
    (∀ i e, 1 ≤ i →
      (∀ j, j < i →
        (pollAnswer jenkins w (heap.getD p default) j).1.Number
          = (previousBuild jenkins w (heap.getD p default)).Number ∧
        (0 < j → (pollAnswer jenkins w (heap.getD p default) j).2 = none)) →
      (pollAnswer jenkins w (heap.getD p default) i).2 = some e →
      ∀ fuel, i < fuel →
        startJob o heap fuel name allNames w =
          some (some e, afterPolls w (heap.getD p default) i [])) :=
  ⟨fun fuel r w' hrun =>
      startJob_outcome o heap fuel name allNames w jenkins p r w' hjob hclient htrigger hrun,
    fun i e hi hidle hfail fuel hfuel =>
      startJob_fails o heap name allNames w jenkins p i fuel e hjob hclient htrigger hidle hi
        hfail hfuel⟩

/-- C5, witness: on a server where every `GetLastBuild` fails, the failure of
poll 0 is passed over and that of poll 1 is returned, after two polls and one
sleep. -/
theorem startJob_poll_failure_witness :
    (svcOptions bareJenkins).Jobs.lookup "svc" = some 0 ∧
    bareJenkins.Build 0 svc = none ∧
    startJob (svcOptions bareJenkins) [svc] 2 "svc" ["svc"] World.start =
      some (some (Error.other "404"), ⟨3, 1, [Event.GetLastBuild svc, Event.Build svc,
        Event.GetLastBuild svc, Event.Sleep, Event.GetLastBuild svc]⟩) :=
  ⟨rfl, rfl,
    (startJob_poll_failure (svcOptions bareJenkins) [svc] "svc" ["svc"] World.start bareJenkins 0
      rfl rfl rfl).2 1 (Error.other "404") (Nat.le_refl 1)
      (fun j hj => by
        have hj0 : j = 0 := by omega
        subst hj0
        exact ⟨rfl, fun h => absurd h (Nat.lt_irrefl 0)⟩)
      rfl 2 (by decide)⟩

/-! ## C6 -/

theorem countP_isGetLastBuild_waiting (job : Job) :
    ∀ k, (waiting job k).countP Event.isGetLastBuild = k := by
  intro k
  induction k with
  | zero => rfl
  | succ k ih => simp [waiting, Event.isGetLastBuild, ih]

theorem countP_isSleep_waiting (job : Job) :
    ∀ k, (waiting job k).countP Event.isSleep = k := by
  intro k
  induction k with
  | zero => rfl
  | succ k ih => simp [waiting, Event.isSleep, ih]

/-- C6: if the trigger succeeds, polls `0 .. k-1` each succeed with the previous
number and poll `k` succeeds with a different number, then `startJob`, given
more than `k` iterations, reports the build of poll `k` and returns; it has
not returned within `k` iterations; and what it did after the trigger is
`k + 1` polls and `k` sleeps. -/
theorem startJob_resolves_at_first_new_number (o : StartPipelineOptions) (heap : Heap)
    (name : String) (allNames : List String) (w : World) (jenkins : Jenkins) (p : Ptr) (k : Nat)
    (hjob : o.Jobs.lookup name = some p) (hclient : o.JenkinsClient = .ok jenkins)
    (htrigger : jenkins.Build w.buildCalls (heap.getD p default) = none)
    (hsame : ∀ j, j < k →
      (pollAnswer jenkins w (heap.getD p default) j).2 = none ∧
      (pollAnswer jenkins w (heap.getD p default) j).1.Number
        = (previousBuild jenkins w (heap.getD p default)).Number)
    (hnew : (pollAnswer jenkins w (heap.getD p default) k).2 = none ∧
      (pollAnswer jenkins w (heap.getD p default) k).1.Number
        ≠ (previousBuild jenkins w (heap.getD p default)).Number) :
    (∀ fuel, k < fuel →
      startJob o heap fuel name allNames w =
        some (reported o name (pollAnswer jenkins w (heap.getD p default) k).1
          (afterPolls w (heap.getD p default) k
            [Event.Started name (pollAnswer jenkins w (heap.getD p default) k).1]))) ∧
    (∀ fuel, fuel ≤ k → startJob o heap fuel name allNames w = none) ∧
    (waiting (heap.getD p default) k ++ [Event.GetLastBuild (heap.getD p default),
      Event.Started name (pollAnswer jenkins w (heap.getD p default) k).1]).countP
        Event.isGetLastBuild = k + 1 ∧
    (waiting (heap.getD p default) k ++ [Event.GetLastBuild (heap.getD p default),
      Event.Started name (pollAnswer jenkins w (heap.getD p default) k).1]).countP
        Event.isSleep = k := by
  refine ⟨fun fuel hfuel => ?_, fun fuel hfuel => ?_, ?_, ?_⟩
  · exact startJob_resolves o heap name allNames w jenkins p k fuel hjob hclient htrigger
      (fun j hj => ⟨(hsame j hj).2, fun _ => (hsame j hj).1⟩) (fun _ => hnew.1) hnew.2 hfuel
  · have := startJob_reaches o heap name allNames w jenkins p fuel 0 hjob hclient htrigger
      (fun j hj => ⟨(hsame j (by omega)).2, fun _ => (hsame j (by omega)).1⟩)
    rw [Nat.add_zero] at this
    rw [this]
    rfl
  · simp [List.countP_append, countP_isGetLastBuild_waiting, Event.isGetLastBuild]
  · simp [List.countP_append, countP_isSleep_waiting, Event.isSleep]

/-- C6, witness: previous number 41, polls answering 41 and then 42: build 42 is
reported after exactly two polls and one sleep. -/
theorem startJob_resolves_at_first_new_number_witness :
    (previousBuild (steadyJenkins [svc]) World.start svc).Number = 41 ∧
    (pollAnswer (steadyJenkins [svc]) World.start svc 0).1.Number = 41 ∧
    (pollAnswer (steadyJenkins [svc]) World.start svc 1).1.Number = 42 ∧
    startJob (svcOptions (steadyJenkins [svc])) [svc] 2 "svc" ["svc"] World.start =
      some (none, ⟨3, 1, [Event.GetLastBuild svc, Event.Build svc, Event.GetLastBuild svc,
        Event.Sleep, Event.GetLastBuild svc,
        Event.Started "svc" ⟨42, "http://jenkins/job/42/"⟩]⟩) ∧
    startJob (svcOptions (steadyJenkins [svc])) [svc] 1 "svc" ["svc"] World.start = none :=
  ⟨rfl, rfl, rfl,
    (startJob_resolves_at_first_new_number (svcOptions (steadyJenkins [svc])) [svc] "svc" ["svc"]
      World.start (steadyJenkins [svc]) 0 1 rfl rfl rfl
      (fun j hj => by
        have hj0 : j = 0 := by omega
        subst hj0
        exact ⟨rfl, rfl⟩)
      ⟨rfl, by decide⟩).1 2 (by decide),
    rfl⟩

/-! ## C7 -/

/-- C7: if the trigger fails with `e`, `startJob` returns `e` at once, whatever
the bound on polling: after the lookup before the trigger and the one trigger
request nothing more happens, neither poll nor report nor sleep. -/
theorem startJob_trigger_failure (o : StartPipelineOptions) (heap : Heap) (fuel : Nat)
    (name : String) (allNames : List String) (w : World) (jenkins : Jenkins) (p : Ptr)
    (e : Error)
    (hjob : o.Jobs.lookup name = some p) (hclient : o.JenkinsClient = .ok jenkins)
    (hfail : jenkins.Build w.buildCalls (heap.getD p default) = some e) :
    startJob o heap fuel name allNames w =
      some (some e, ⟨w.lastBuildCalls + 1, w.buildCalls + 1,
        w.trace ++ [Event.GetLastBuild (heap.getD p default),
          Event.Build (heap.getD p default)]⟩) := by
  simp only [startJob, hjob, hclient, getLastBuild, build, hfail, List.append_assoc,
    List.singleton_append]

/-- C7, witness: a server refusing every trigger, and no polling allowed. -/
theorem startJob_trigger_failure_witness :
    refusingJenkins.Build 0 svc = some (Error.other "403") ∧
    startJob (svcOptions refusingJenkins) [svc] 0 "svc" ["svc"] World.start =
      some (some (Error.other "403"), ⟨1, 1, [Event.GetLastBuild svc, Event.Build svc]⟩) :=
  ⟨rfl, startJob_trigger_failure (svcOptions refusingJenkins) [svc] 0 "svc" ["svc"] World.start
    refusingJenkins 0 (Error.other "403") rfl rfl rfl⟩

/-! ## C8 -/

/-- C8, amended: `startJob` reads no error from the lookup before the trigger.
Whether that lookup fails or not, and so also when it fails, `startJob` keeps
as `previous` the `Build` that came back from it and goes on: (1) whenever
it returns, it has sent the trigger right after the lookup; (2) a trigger
failing with `e'` makes it return `e'`; (3) if the trigger succeeds, the polls
before poll `k` show the number of `previous` (none but poll 0 failing) and
poll `k` succeeds with another number, `startJob` reports the build of poll
`k`; (4) when the `Build` that came back from the lookup has number 0, (3)
reads: the polls before poll `k` show 0 and poll `k` succeeds with a number
other than 0. -/
theorem startJob_failed_lookup (o : StartPipelineOptions) (heap : Heap)
    (name : String) (allNames : List String) (w : World) (jenkins : Jenkins) (p : Ptr)
    (hjob : o.Jobs.lookup name = some p) (hclient : o.JenkinsClient = .ok jenkins) :
    (∀ fuel r w', startJob o heap fuel name allNames w = some (r, w') →
      ∃ evs, w'.trace = w.trace ++ Event.GetLastBuild (heap.getD p default) ::
        Event.Build (heap.getD p default) :: evs) ∧
    (∀ e', jenkins.Build w.buildCalls (heap.getD p default) = some e' →
      ∀ fuel, startJob o heap fuel name allNames w =
        some (some e', ⟨w.lastBuildCalls + 1, w.buildCalls + 1,
          w.trace ++ [Event.GetLastBuild (heap.getD p default),
            Event.Build (heap.getD p default)]⟩)) ∧
    (jenkins.Build w.buildCalls (heap.getD p default) = none →
      ∀ k,
        (∀ j, j < k →
          (pollAnswer jenkins w (heap.getD p default) j).1.Number
            = (jenkins.GetLastBuild w.lastBuildCalls (heap.getD p default)).1.Number ∧
          (0 < j → (pollAnswer jenkins w (heap.getD p default) j).2 = none)) →
        (pollAnswer jenkins w (heap.getD p default) k).2 = none →
        (pollAnswer jenkins w (heap.getD p default) k).1.Number
          ≠ (jenkins.GetLastBuild w.lastBuildCalls (heap.getD p default)).1.Number →
        ∀ fuel, k < fuel →
          startJob o heap fuel name allNames w =
            some (reported o name (pollAnswer jenkins w (heap.getD p default) k).1
              (afterPolls w (heap.getD p default) k
                [Event.Started name (pollAnswer jenkins w (heap.getD p default) k).1]))) ∧
    ((jenkins.GetLastBuild w.lastBuildCalls (heap.getD p default)).1.Number = 0 →
      jenkins.Build w.buildCalls (heap.getD p default) = none →
      ∀ k,
        (∀ j, j < k → (pollAnswer jenkins w (heap.getD p default) j).1.Number = 0 ∧
          (0 < j → (pollAnswer jenkins w (heap.getD p default) j).2 = none)) →
        (pollAnswer jenkins w (heap.getD p default) k).2 = none →
        (pollAnswer jenkins w (heap.getD p default) k).1.Number ≠ 0 →
        ∀ fuel, k < fuel →
          startJob o heap fuel name allNames w =
            some (reported o name (pollAnswer jenkins w (heap.getD p default) k).1
              (afterPolls w (heap.getD p default) k
                [Event.Started name (pollAnswer jenkins w (heap.getD p default) k).1]))) := by
  have hres : jenkins.Build w.buildCalls (heap.getD p default) = none →
      ∀ k,
        (∀ j, j < k →
          (pollAnswer jenkins w (heap.getD p default) j).1.Number
            = (jenkins.GetLastBuild w.lastBuildCalls (heap.getD p default)).1.Number ∧
          (0 < j → (pollAnswer jenkins w (heap.getD p default) j).2 = none)) →
        (pollAnswer jenkins w (heap.getD p default) k).2 = none →
        (pollAnswer jenkins w (heap.getD p default) k).1.Number
          ≠ (jenkins.GetLastBuild w.lastBuildCalls (heap.getD p default)).1.Number →
        ∀ fuel, k < fuel →
          startJob o heap fuel name allNames w =
            some (reported o name (pollAnswer jenkins w (heap.getD p default) k).1
              (afterPolls w (heap.getD p default) k
                [Event.Started name (pollAnswer jenkins w (heap.getD p default) k).1])) :=
    fun htrigger k hidle hok hnew fuel hfuel =>
      startJob_resolves o heap name allNames w jenkins p k fuel hjob hclient htrigger
        hidle (fun _ => hok) hnew hfuel
  refine ⟨fun fuel r w' hrun => ?_, fun e' he' fuel => ?_, hres, ?_⟩
  · cases htrigger : jenkins.Build w.buildCalls (heap.getD p default) with
    | some e' =>
      simp only [startJob, hjob, hclient, getLastBuild, build, htrigger, Option.some.injEq,
        Prod.mk.injEq] at hrun
      refine ⟨[], ?_⟩
      rw [← hrun.2]
      simp
    | none =>
      obtain ⟨i, _, hout⟩ :=
        startJob_outcome o heap fuel name allNames w jenkins p r w' hjob hclient htrigger hrun
      rcases hout with ⟨_, _, _, hw'⟩ | ⟨_, hrep⟩
      · refine ⟨waiting (heap.getD p default) i ++ [Event.GetLastBuild (heap.getD p default)], ?_⟩
        rw [hw']
        simp [afterPolls]
      · unfold reported at hrep
        by_cases ht : o.Tail = true
        · simp only [ht, if_true] at hrep
          obtain ⟨evs, hevs, _⟩ := tailBuild_trace o name
            (pollAnswer jenkins w (heap.getD p default) i).1
            (afterPolls w (heap.getD p default) i
              [Event.Started name (pollAnswer jenkins w (heap.getD p default) i).1])
          rw [← hrep] at hevs
          simp only at hevs
          refine ⟨waiting (heap.getD p default) i ++ Event.GetLastBuild (heap.getD p default) ::
            Event.Started name (pollAnswer jenkins w (heap.getD p default) i).1 :: evs, ?_⟩
          rw [hevs]
          simp [afterPolls]
        · simp only [ht, Bool.false_eq_true, if_false, Prod.mk.injEq] at hrep
          refine ⟨waiting (heap.getD p default) i ++ [Event.GetLastBuild (heap.getD p default),
            Event.Started name (pollAnswer jenkins w (heap.getD p default) i).1], ?_⟩
          rw [hrep.2]
          simp [afterPolls]
  · simp only [startJob, hjob, hclient, getLastBuild, build, he', List.append_assoc,
      List.singleton_append]
  · intro h0 htrigger k hidle hok hnew fuel hfuel
    exact hres htrigger k (fun j hj => ⟨(hidle j hj).1.trans h0.symm, (hidle j hj).2⟩) hok
      (fun h => hnew (h.trans h0)) fuel hfuel

/-- C8, witness: a job that has never built; the failed lookup is not returned,
the trigger is issued, the failed first poll is passed over and build 1 of the
second poll is reported. -/
theorem startJob_failed_lookup_witness :
    freshJenkins.GetLastBuild 0 svc = (default, some (Error.other "404")) ∧
    startJob (svcOptions freshJenkins) [svc] 2 "svc" ["svc"] World.start =
      some (none, ⟨3, 1, [Event.GetLastBuild svc, Event.Build svc, Event.GetLastBuild svc,
        Event.Sleep, Event.GetLastBuild svc,
        Event.Started "svc" ⟨1, "http://jenkins/job/1/"⟩]⟩) :=
  ⟨rfl,
    (startJob_failed_lookup (svcOptions freshJenkins) [svc] "svc" ["svc"] World.start
      freshJenkins 0 rfl rfl).2.2.2 rfl rfl 1
      (fun j hj => by
        have hj0 : j = 0 := by omega
        subst hj0
        exact ⟨rfl, fun h => absurd h (Nat.lt_irrefl 0)⟩)
      rfl (by decide) 2 (by decide)⟩

/-- C8, counterexample: (1) the lookup before the trigger fails and hands back
build 41 with its error; the first poll succeeds with number 41, which is not
0, and does not resolve: `startJob` sleeps and reports build 42 of the second
poll.  (2) The lookup fails with the zero `Build`, the first two polls fail
and the third would succeed with number 1: `startJob` returns the error of the
second poll and never makes the third. -/
theorem startJob_failed_lookup_keeps_value :
    (staleJenkins.GetLastBuild 0 svc
        = (⟨41, "http://jenkins/job/41/"⟩, some (Error.other "unexpected EOF")) ∧
      pollAnswer staleJenkins World.start svc 0 = (⟨41, "http://jenkins/job/41/"⟩, none) ∧
      startJob (svcOptions staleJenkins) [svc] 5 "svc" ["svc"] World.start =
        some (none, ⟨3, 1, [Event.GetLastBuild svc, Event.Build svc, Event.GetLastBuild svc,
          Event.Sleep, Event.GetLastBuild svc,
          Event.Started "svc" ⟨42, "http://jenkins/job/42/"⟩]⟩)) ∧
    (slowJenkins.GetLastBuild 0 svc = (default, some (Error.other "404")) ∧
      pollAnswer slowJenkins World.start svc 2 = (⟨1, "http://jenkins/job/1/"⟩, none) ∧
      startJob (svcOptions slowJenkins) [svc] 5 "svc" ["svc"] World.start =
        some (some (Error.other "404"), ⟨3, 1, [Event.GetLastBuild svc, Event.Build svc,
          Event.GetLastBuild svc, Event.Sleep, Event.GetLastBuild svc]⟩)) :=
  ⟨⟨rfl, rfl, rfl⟩, rfl, rfl, rfl⟩

/-! ## Sorting -/

theorem lexLe_total : ∀ a b : List Nat, lexLe a b = true ∨ lexLe b a = true := by
  intro a
  induction a with
  | nil => intro b; exact Or.inl (by cases b <;> rfl)
  | cons x a ih =>
    intro b
    cases b with
    | nil => exact Or.inr rfl
    | cons y b =>
      simp only [lexLe, Bool.or_eq_true, Bool.and_eq_true, decide_eq_true_eq]
      rcases Nat.lt_trichotomy x y with h | h | h
      · exact Or.inl (Or.inl h)
      · rcases ih b with h' | h'
        · exact Or.inl (Or.inr ⟨h, h'⟩)
        · exact Or.inr (Or.inr ⟨h.symm, h'⟩)
      · exact Or.inr (Or.inl h)

theorem lexLe_trans : ∀ a b c : List Nat,
    lexLe a b = true → lexLe b c = true → lexLe a c = true := by
  intro a
  induction a with
  | nil => intro b c _ _; cases c <;> rfl
  | cons x a ih =>
    intro b c hab hbc
    cases b with
    | nil => simp [lexLe] at hab
    | cons y b =>
      cases c with
      | nil => simp [lexLe] at hbc
      | cons z c =>
        simp only [lexLe, Bool.or_eq_true, Bool.and_eq_true, decide_eq_true_eq] at hab hbc ⊢
        rcases hab with h1 | ⟨h1, h1'⟩
        · rcases hbc with h2 | ⟨h2, _⟩
          · exact Or.inl (by omega)
          · exact Or.inl (by omega)
        · rcases hbc with h2 | ⟨h2, h2'⟩
          · exact Or.inl (by omega)
          · exact Or.inr ⟨by omega, ih b c h1' h2'⟩

theorem mem_orderedInsert (a k : String) :
    ∀ l : List String, k ∈ orderedInsert a l ↔ k = a ∨ k ∈ l := by
  intro l
  induction l with
  | nil => simp [orderedInsert]
  | cons b l ih =>
    simp only [orderedInsert]
    split
    · simp
    · simp only [List.mem_cons, ih]
      constructor
      · rintro (h | h | h)
        · exact Or.inr (Or.inl h)
        · exact Or.inl h
        · exact Or.inr (Or.inr h)
      · rintro (h | h | h)
        · exact Or.inr (Or.inl h)
        · exact Or.inl h
        · exact Or.inr (Or.inr h)

theorem mem_sortStrings (k : String) : ∀ l : List String, k ∈ sortStrings l ↔ k ∈ l := by
  intro l
  induction l with
  | nil => simp [sortStrings]
  | cons a l ih => simp [sortStrings, mem_orderedInsert, ih]

theorem pairwise_orderedInsert (a : String) :
    ∀ l : List String, l.Pairwise (fun x y => strLe x y = true) →
      (orderedInsert a l).Pairwise (fun x y => strLe x y = true) := by
  intro l
  induction l with
  | nil => intro _; simp [orderedInsert]
  | cons b l ih =>
    intro h
    have hb := List.pairwise_cons.1 h
    simp only [orderedInsert]
    split
    · rename_i hab
      refine List.pairwise_cons.2 ⟨fun y hy => ?_, h⟩
      rcases List.mem_cons.1 hy with rfl | hy
      · exact hab
      · exact lexLe_trans _ _ _ hab (hb.1 y hy)
    · rename_i hab
      refine List.pairwise_cons.2 ⟨fun y hy => ?_, ih hb.2⟩
      rcases (mem_orderedInsert a y l).1 hy with rfl | hy
      · rcases lexLe_total (b.data.map Char.toNat) (y.data.map Char.toNat) with h' | h'
        · exact h'
        · exact absurd h' hab
      · exact hb.1 y hy

theorem pairwise_sortStrings :
    ∀ l : List String, (sortStrings l).Pairwise (fun x y => strLe x y = true) := by
  intro l
  induction l with
  | nil => simp [sortStrings]
  | cons a l ih => exact pairwise_orderedInsert a _ ih

theorem nodup_orderedInsert (a : String) :
    ∀ l : List String, a ∉ l → l.Nodup → (orderedInsert a l).Nodup := by
  intro l
  induction l with
  | nil => intro _ _; simp [orderedInsert]
  | cons b l ih =>
    intro ha h
    have hb := List.nodup_cons.1 h
    simp only [orderedInsert]
    split
    · exact List.nodup_cons.2 ⟨ha, h⟩
    · refine List.nodup_cons.2 ⟨fun hmem => ?_, ih (fun h' => ha (List.mem_cons_of_mem _ h')) hb.2⟩
      rcases (mem_orderedInsert a b l).1 hmem with h' | h'
      · exact ha (by rw [h']; exact List.mem_cons_self _ _)
      · exact hb.1 h'

theorem nodup_sortStrings : ∀ l : List String, l.Nodup → (sortStrings l).Nodup := by
  intro l
  induction l with
  | nil => intro _; simp [sortStrings]
  | cons a l ih =>
    intro h
    have ha := List.nodup_cons.1 h
    exact nodup_orderedInsert a _ (fun h' => ha.1 ((mem_sortStrings a l).1 h')) (ih ha.2)

theorem lookup_eq_none_of_not_mem_keys (name : String) :
    ∀ m : List (String × Ptr), name ∉ m.map Prod.fst → m.lookup name = none := by
  intro m
  induction m with
  | nil => intro _; rfl
  | cons e m ih =>
    intro h
    obtain ⟨k, v⟩ := e
    simp only [List.map_cons, List.mem_cons, not_or] at h
    have hk : (name == k) = false := by simpa using h.1
    simp only [List.lookup, hk]
    exact ih h.2

/-! ## C9 -/

/-- C9: for every map and every name that is not one of its keys, `startJob`
called as `Run` calls it returns the invalid-argument error made of that name
and the list of names, and leaves the world as it was (no lookup, trigger or
poll is sent); that list holds exactly the keys of the map, each once, in
ascending order. -/
theorem startJob_unknown_name (o : StartPipelineOptions) (heap : Heap) (fuel : Nat)
    (name : String) (w : World) (hname : name ∉ keys o) :
    startJob o heap fuel name (sortedNames o) w =
      some (some (Error.InvalidArg name (sortedNames o)), w) ∧
    (∀ k, k ∈ sortedNames o ↔ k ∈ keys o) ∧
    (sortedNames o).Nodup ∧
    (sortedNames o).Pairwise (fun a b => strLe a b = true) := by
  refine ⟨?_, fun k => ?_, ?_, ?_⟩
  · simp only [startJob, lookup_eq_none_of_not_mem_keys name o.Jobs hname]
  · simp [sortedNames, mem_sortStrings]
  · exact nodup_sortStrings _ (List.nodup_dedup _)
  · exact pairwise_sortStrings _

/-- C9, witness: a map with the keys `svc`, `app/master` and `svc` again, and
the unknown name `nope`. -/
theorem startJob_unknown_name_witness :
    "nope" ∉ keys { bareOptions bareJenkins with Jobs := [("svc", 0), ("app/master", 1), ("svc", 2)] } ∧
    startJob { bareOptions bareJenkins with Jobs := [("svc", 0), ("app/master", 1), ("svc", 2)] }
      [svc, svc, svc] 3 "nope" ["app/master", "svc"] World.start =
      some (some (Error.InvalidArg "nope" ["app/master", "svc"]), World.start) :=
  ⟨by decide,
    (startJob_unknown_name
      { bareOptions bareJenkins with Jobs := [("svc", 0), ("app/master", 1), ("svc", 2)] }
      [svc, svc, svc] 3 "nope" World.start (by decide)).1⟩

/-! ## C10 -/

/-- A list splits into its longest front part satisfying `q` and a rest that
is empty or starts with an element failing `q`. -/
theorem takeWhile_split (q : Char → Bool) :
    ∀ l : List Char, ∃ d, l = l.takeWhile q ++ d ∧
      (d = [] ∨ ∃ c d', d = c :: d' ∧ q c = false) := by
  intro l
  induction l with
  | nil => exact ⟨[], rfl, Or.inl rfl⟩
  | cons a l ih =>
    cases hq : q a with
    | false => exact ⟨a :: l, by simp [List.takeWhile, hq], Or.inr ⟨a, l, rfl, hq⟩⟩
    | true =>
      obtain ⟨d, hd, hcase⟩ := ih
      refine ⟨d, ?_, hcase⟩
      simp only [List.takeWhile, hq, List.cons_append]
      exact congrArg _ hd

/-- Ending in `/master` is having the last segment `master` without being the
root-level name `master`. -/
theorem hasSuffix_master_iff (n : String) :
    HasSuffix n "/master" = true ↔ UnderMaster n := by
  simp only [HasSuffix, decide_eq_true_eq, UnderMaster]
  constructor
  · rintro ⟨t, ht⟩
    have hdata : n.data = t ++ ['/', 'm', 'a', 's', 't', 'e', 'r'] := ht.symm
    constructor
    · simp only [lastSegment, hdata, List.reverse_append, List.reverse_cons, List.reverse_nil,
        List.nil_append, List.cons_append, List.takeWhile]
      rfl
    · intro hn
      have hlen := congrArg List.length hdata
      rw [hn] at hlen
      simp at hlen
  · rintro ⟨hseg, hne⟩
    have hseg' : (n.data.reverse.takeWhile (fun c => c != '/')).reverse
        = ['m', 'a', 's', 't', 'e', 'r'] := congrArg String.data hseg
    have htw : n.data.reverse.takeWhile (fun c => c != '/')
        = ['r', 'e', 't', 's', 'a', 'm'] := by
      have := congrArg List.reverse hseg'
      simpa using this
    obtain ⟨d, hd, hcase⟩ := takeWhile_split (fun c => c != '/') n.data.reverse
    rw [htw] at hd
    rcases hcase with rfl | ⟨c, d', rfl, hc⟩
    · exfalso
      apply hne
      have h1 : n.data = ['m', 'a', 's', 't', 'e', 'r'] := by
        have := congrArg List.reverse hd
        simpa using this
      cases n
      simp only at h1
      subst h1
      rfl
    · have hc' : c = '/' := by simpa using hc
      subst hc'
      refine ⟨d'.reverse, ?_⟩
      have := congrArg List.reverse hd
      simp only [List.reverse_reverse, List.reverse_append, List.reverse_cons,
        List.reverse_nil, List.nil_append, List.append_assoc, List.cons_append] at this
      rw [this]

/-- The search for the default name finds the first name ending in `/master`,
or nothing. -/
theorem defaultName_spec :
    ∀ names : List String,
      (defaultName names = "" ∧ ∀ n ∈ names, HasSuffix n "/master" = false) ∨
      (∃ pre post, names = pre ++ defaultName names :: post ∧
        HasSuffix (defaultName names) "/master" = true ∧
        ∀ n ∈ pre, HasSuffix n "/master" = false) := by
  intro names
  induction names with
  | nil => exact Or.inl ⟨rfl, fun n hn => absurd hn (List.not_mem_nil _)⟩
  | cons a l ih =>
    cases ha : HasSuffix a "/master" with
    | true =>
      refine Or.inr ⟨[], l, ?_, ?_, fun n hn => absurd hn (List.not_mem_nil _)⟩
      · simp [defaultName, ha]
      · simp [defaultName, ha]
    | false =>
      have hd : defaultName (a :: l) = defaultName l := by simp [defaultName, ha]
      rw [hd]
      rcases ih with ⟨h1, h2⟩ | ⟨pre, post, h1, h2, h3⟩
      · refine Or.inl ⟨h1, fun n hn => ?_⟩
        rcases List.mem_cons.1 hn with rfl | hn
        · exact ha
        · exact h2 n hn
      · refine Or.inr ⟨a :: pre, post, by rw [List.cons_append, ← h1], h2, fun n hn => ?_⟩
        rcases List.mem_cons.1 hn with rfl | hn
        · exact ha
        · exact h3 n hn

/-- The block of `Run` that picks a name, given no arguments: it calls the picker
with the sorted keys and the first of them that ends in `/master`, or with the
empty default when there is none. -/
theorem selectArgs_default_name (o : StartPipelineOptions) (w : World) (hargs : o.Args = []) :
    ∃ d, (selectArgs o (sortedNames o) w).2.trace
        = w.trace ++ [Event.Pick (sortedNames o) d] ∧
      ((d = "" ∧ ∀ n ∈ sortedNames o, ¬ UnderMaster n) ∨
       (∃ pre post, sortedNames o = pre ++ d :: post ∧ UnderMaster d ∧
          ∀ n ∈ pre, ¬ UnderMaster n)) := by
  refine ⟨defaultName (sortedNames o), ?_, ?_⟩
  · simp only [selectArgs, hargs, World.emit]
    split <;> rfl
  · rcases defaultName_spec (sortedNames o) with ⟨h1, h2⟩ | ⟨pre, post, h1, h2, h3⟩
    · refine Or.inl ⟨h1, fun n hn hu => ?_⟩
      have := (hasSuffix_master_iff n).2 hu
      rw [h2 n hn] at this
      exact absurd this (by simp)
    · refine Or.inr ⟨pre, post, h1, (hasSuffix_master_iff _).1 h2, fun n hn hu => ?_⟩
      have := (hasSuffix_master_iff n).2 hu
      rw [h3 n hn] at this
      exact absurd this (by simp)

/-- C10, counterexample: the only key is the root-level `master`, whose last
segment is `master`; `Run`, given no names, calls the picker with the empty
default. -/
theorem Run_root_master_not_default :
    lastSegment "master" = "master" ∧
    Run (interruptedOptions (steadyJenkins [rootMaster])) 2 World.start =
      some (some (Error.other "interrupt"), ⟨0, 0, [Event.Pick ["master"] ""]⟩) :=
  ⟨by decide, rfl⟩

/-! ## C11 -/

theorem passes_eq_contains (f k : String) : passes f k = Contains k f := by
  unfold passes
  by_cases hf : f = ""
  · subst hf
    have : Contains k "" = true := by
      simp only [Contains, decide_eq_true_eq]
      exact List.nil_infix
    rw [this]
    rfl
  · have : (f == "") = false := by simpa using hf
    rw [this, Bool.false_or]

/-- The loop of `addJobs` keeps the filtered and the unfiltered traversal in
step when the recursive call does. -/
theorem addJobsLoop_restricts (f : String) (jenkins : Jenkins)
    (recurse : String → List Job → State → Option State)
    (hrec : ∀ name js sf se, Restricts f sf se →
      EndAlike (Restricts f) (recurse name js sf) (recurse name js se))
    (pfx : String) (jp : Ptr) :
    ∀ (jobs : List Job) (sf se : State), Restricts f sf se →
      EndAlike (Restricts f) (addJobsLoop jenkins recurse pfx jp jobs sf)
        (addJobsLoop jenkins recurse pfx jp jobs se) := by
  intro jobs
  induction jobs with
  | nil => intro sf se h; exact h
  | cons j rest ih =>
    rintro ⟨of, hf⟩ ⟨oe, he⟩ ⟨hheap, hjobs, hff, hfe, hcl⟩
    simp only at hheap hjobs hff hfe hcl
    rw [addJobsLoop_cons, addJobsLoop_cons]
    have hstep : Restricts f
        (if IsPipeline j && passes of.Filter (jobName pfx j)
          then { of with Jobs := (jobName pfx j, jp) :: of.Jobs } else of, hf.set jp j)
        (if IsPipeline j && passes oe.Filter (jobName pfx j)
          then { oe with Jobs := (jobName pfx j, jp) :: oe.Jobs } else oe, he.set jp j) := by
      have hpf : passes of.Filter (jobName pfx j) = Contains (jobName pfx j) f := by
        rw [hff, passes_eq_contains]
      have hpe : passes oe.Filter (jobName pfx j) = true := by
        rw [hfe]; rfl
      rw [hpf, hpe, Bool.and_true]
      cases hp : IsPipeline j with
      | false =>
        simp only [Bool.false_and, Bool.false_eq_true, if_false]
        exact ⟨by rw [hheap], hjobs, hff, hfe, hcl⟩
      | true =>
        simp only [Bool.true_and, if_true]
        cases hc : Contains (jobName pfx j) f with
        | false =>
          simp only [Bool.false_eq_true, if_false]
          refine ⟨by rw [hheap], ?_, hff, hfe, hcl⟩
          simp only [List.filter_cons, hc, Bool.false_eq_true, if_false]
          exact hjobs
        | true =>
          simp only [if_true]
          refine ⟨by rw [hheap], ?_, hff, hfe, hcl⟩
          simp only [List.filter_cons, hc, if_true]
          rw [hjobs]
    cases hc : children jenkins (jobName pfx j) j with
    | none => exact ih _ _ hstep
    | some js =>
      have hr := hrec (jobName pfx j) js _ _ hstep
      simp only
      revert hr
      cases recurse (jobName pfx j) js
          (if IsPipeline j && passes of.Filter (jobName pfx j)
            then { of with Jobs := (jobName pfx j, jp) :: of.Jobs } else of, hf.set jp j) with
      | none =>
        cases recurse (jobName pfx j) js
            (if IsPipeline j && passes oe.Filter (jobName pfx j)
              then { oe with Jobs := (jobName pfx j, jp) :: oe.Jobs } else oe, he.set jp j) with
        | none => intro _; trivial
        | some b => intro hr; exact absurd hr (by simp [EndAlike])
      | some a =>
        cases recurse (jobName pfx j) js
            (if IsPipeline j && passes oe.Filter (jobName pfx j)
              then { oe with Jobs := (jobName pfx j, jp) :: oe.Jobs } else oe, he.set jp j) with
        | none => intro hr; exact absurd hr (by simp [EndAlike])
        | some b => intro hr; exact ih a b hr

/-- The filtered and the unfiltered traversal stay in step. -/
theorem addJobs_restricts (f : String) :
    ∀ (n : Nat) (pfx : String) (jobs : List Job) (sf se : State), Restricts f sf se →
      EndAlike (Restricts f) (addJobs n pfx jobs sf) (addJobs n pfx jobs se) := by
  intro n
  induction n with
  | zero => intro pfx jobs sf se _; trivial
  | succ n ih =>
    rintro pfx jobs ⟨of, hf⟩ ⟨oe, he⟩ h
    obtain ⟨hheap, hjobs, hff, hfe, hcl⟩ := h
    simp only at hheap hjobs hff hfe hcl
    simp only [addJobs]
    rw [hcl]
    cases hc : oe.JenkinsClient with
    | error e => exact ⟨hheap, hjobs, hff, hfe, hcl⟩
    | ok jenkins =>
      simp only
      rw [hheap]
      exact addJobsLoop_restricts f jenkins (addJobs n) (fun name js sf se h => ih name js sf se h)
        pfx he.length jobs _ _ ⟨rfl, hjobs, hff, hfe, hcl⟩

/-- C11: for every job tree, every filter `f` (the empty one included) and
every depth bound, the traversal with `Filter = f` and the traversal with no
filter, both started on an empty map, either both have not finished or both
have, and then they leave the same heap (they visited the same nodes), the
filtered map is the unfiltered map cut down to the entries whose key contains
`f`, and so a key is in the filtered map exactly when it is in the unfiltered
one and contains `f`. -/
theorem addJobs_filter_is_restriction (o : StartPipelineOptions) (heap : Heap) (f : String)
    (n : Nat) (roots : List Job) :
    EndAlike
      (fun sf se => sf.2 = se.2 ∧
        sf.1.Jobs = se.1.Jobs.filter (fun e => Contains e.1 f) ∧
        ∀ k, k ∈ keys sf.1 ↔ (k ∈ keys se.1 ∧ Contains k f = true))
      (addJobs n "" roots ({ o with Filter := f, Jobs := [] }, heap))
      (addJobs n "" roots ({ o with Filter := "", Jobs := [] }, heap)) := by
  have h := addJobs_restricts f n "" roots ({ o with Filter := f, Jobs := [] }, heap)
    ({ o with Filter := "", Jobs := [] }, heap) ⟨rfl, rfl, rfl, rfl, rfl⟩
  revert h
  cases addJobs n "" roots ({ o with Filter := f, Jobs := [] }, heap) with
  | none =>
    cases addJobs n "" roots ({ o with Filter := "", Jobs := [] }, heap) with
    | none => intro _; trivial
    | some b => intro h; exact h
  | some a =>
    cases addJobs n "" roots ({ o with Filter := "", Jobs := [] }, heap) with
    | none => intro h; exact h
    | some b =>
      rintro ⟨h1, h2, _⟩
      refine ⟨h1, h2, fun k => ?_⟩
      simp only [keys, h2, List.mem_map, List.mem_filter]
      constructor
      · rintro ⟨e, ⟨he, hc⟩, rfl⟩
        exact ⟨⟨e, he, rfl⟩, hc⟩
      · rintro ⟨⟨e, he, rfl⟩, hc⟩
        exact ⟨e, ⟨he, hc⟩, rfl⟩

/-- The filter `service-b` on the tree `team1`: the folders `team1` and `nested`
do not contain it and are traversed all the same. -/
theorem addJobs_filter_team1 :
    (addJobs 4 "" [team1] ({ bareOptions bareJenkins with Filter := "service-b" }, [])).map
      (fun s => keys s.1) = some ["team1/nested/service-b"] ∧
    (addJobs 4 "" [team1] (bareOptions bareJenkins, [])).map (fun s => keys s.1)
      = some ["team1/nested/service-b", "team1/service-a"] := by
  constructor <;> decide

/-! ## C13 -/

/-- The tree `team1` on a server where every fetch fails is finite. -/
theorem team1_finite : FiniteForest bareJenkins "" [team1] := by
  refine FiniteForest_cons (fun js hjs => ?_) FiniteForest_nil
  cases hjs
  refine FiniteForest_cons (fun js hjs => ?_) (FiniteForest_cons (fun js hjs => ?_) FiniteForest_nil)
  · cases hjs; exact FiniteForest_nil
  · cases hjs
    refine FiniteForest_cons (fun js hjs => ?_) FiniteForest_nil
    cases hjs; exact FiniteForest_nil

/-- C13: on every finite job tree with fixed fetch responses (and any filter),
at every depth bound from some bound on, `addJobs "" roots` run on an empty
map ends, run a second time on the map it produced it ends again, and the
second run leaves the key set as the single run on the empty map made it. -/
theorem addJobs_idempotent (jenkins : Jenkins) (o : StartPipelineOptions) (heap : Heap)
    (roots : List Job) (hclient : o.JenkinsClient = .ok jenkins)
    (hfin : FiniteForest jenkins "" roots) :
    ∃ n, ∀ m, n ≤ m → ∃ s1 s2,
      addJobs m "" roots ({ o with Jobs := [] }, heap) = some s1 ∧
      addJobs m "" roots s1 = some s2 ∧
      ∀ k, k ∈ keys s2.1 ↔ k ∈ keys s1.1 := by
  obtain ⟨n, hn⟩ := addJobs_ends jenkins hfin
  refine ⟨n, fun m hm => ?_⟩
  obtain ⟨s1, hs1⟩ := hn ({ o with Jobs := [] }, heap) hclient
  have h1 := addJobs_le hm hs1
  obtain ⟨hf1, hk1⟩ := addJobs_adds jenkins m "" roots _ s1 hclient h1
  have hc1 : s1.1.JenkinsClient = .ok jenkins := hf1.1.trans hclient
  obtain ⟨s2, hs2⟩ := hn s1 hc1
  have h2 := addJobs_le hm hs2
  obtain ⟨_, hk2⟩ := addJobs_adds jenkins m "" roots s1 s2 hc1 h2
  refine ⟨s1, s2, h1, h2, fun k => ?_⟩
  rw [hk2 k]
  constructor
  · rintro (h | ⟨j, hd, hp, hpass⟩)
    · exact h
    · rw [hf1.2.2.2.2.2] at hpass
      exact (hk1 k).2 (Or.inr ⟨j, hd, hp, hpass⟩)
  · exact Or.inl

/-- C13, witness: the tree `team1`; two runs in a row leave the keys of one run. -/
theorem addJobs_idempotent_witness :
    (∃ n, ∀ m, n ≤ m → ∃ s1 s2,
      addJobs m "" [team1] ({ bareOptions bareJenkins with Jobs := [] }, []) = some s1 ∧
      addJobs m "" [team1] s1 = some s2 ∧
      ∀ k, k ∈ keys s2.1 ↔ k ∈ keys s1.1) ∧
    ((addJobs 4 "" [team1] (bareOptions bareJenkins, [])).bind (addJobs 4 "" [team1])).map
      (fun s => (keys s.1).dedup) = some ["team1/nested/service-b", "team1/service-a"] :=
  ⟨addJobs_idempotent bareJenkins (bareOptions bareJenkins) [] [team1] rfl team1_finite,
    by decide⟩

/-! ## C15 -/

/-- On `loopJenkins` the traversal of `loopFolder` is unfinished at every depth. -/
theorem addJobs_loopFolder :
    ∀ (n : Nat) (pfx : String) (s : State), s.1.JenkinsClient = .ok loopJenkins →
      addJobs n pfx [loopFolder] s = none := by
  intro n
  induction n with
  | zero => intro pfx s _; rfl
  | succ n ih =>
    rintro pfx ⟨o, heap⟩ hcl
    simp only at hcl
    simp only [addJobs, hcl]
    rw [addJobsLoop_cons]
    have hch : children loopJenkins (jobName pfx loopFolder) loopFolder = some [loopFolder] := rfl
    simp only [hch]
    rw [ih]
    · rfl
    · simp only
      split <;> exact hcl

/-- A forest that is not finite has a child forest that is not finite. -/
theorem exists_child_not_finite (jenkins : Jenkins) (a : String × List Job)
    (h : ¬ FiniteForest jenkins a.1 a.2) :
    ∃ b, ChildForest jenkins a b ∧ ¬ FiniteForest jenkins b.1 b.2 := by
  by_contra hno
  apply h
  refine FiniteForest.intro (fun j hj js hjs => ?_)
  by_contra hnf
  exact hno ⟨(jobName a.1 j, js), ⟨j, hj, rfl, hjs⟩, hnf⟩

/-- If every chain of child forests from `a` ends, the forest `a` is finite. -/
theorem finite_of_chains_end (jenkins : Jenkins) (a : String × List Job)
    (hchains : ∀ f : Nat → String × List Job, f 0 = a →
      ∃ i, ¬ ChildForest jenkins (f i) (f (i + 1))) :
    FiniteForest jenkins a.1 a.2 := by
  by_contra hnot
  have hnext : ∀ x : { b : String × List Job // ¬ FiniteForest jenkins b.1 b.2 },
      ∃ y : { b : String × List Job // ¬ FiniteForest jenkins b.1 b.2 },
        ChildForest jenkins x.1 y.1 := by
    rintro ⟨b, hb⟩
    obtain ⟨c, hc, hcn⟩ := exists_child_not_finite jenkins b hb
    exact ⟨⟨c, hcn⟩, hc⟩
  choose nxt hnxt using hnext
  obtain ⟨i, hi⟩ := hchains (fun i => (nxt^[i] ⟨a, hnot⟩).1) rfl
  apply hi
  simp only [Function.iterate_succ_apply']
  exact hnxt _

/-- In a finite forest every chain of child forests ends. -/
theorem chains_end_of_finite (jenkins : Jenkins) {pfx : String} {jobs : List Job}
    (hfin : FiniteForest jenkins pfx jobs) :
    ∀ f : Nat → String × List Job, f 0 = (pfx, jobs) →
      ∃ i, ¬ ChildForest jenkins (f i) (f (i + 1)) := by
  induction hfin with
  | @intro pfx jobs _ ih =>
    intro f hf0
    by_contra hall
    have hall' : ∀ i, ChildForest jenkins (f i) (f (i + 1)) := by
      intro i
      by_contra hi
      exact hall ⟨i, hi⟩
    obtain ⟨j, hj, hname, hch⟩ := hall' 0
    rw [hf0] at hj hname hch
    simp only at hj hname hch
    obtain ⟨i, hi⟩ := ih j hj (f 1).2 hch (fun i => f (i + 1)) (by
      simp only [Nat.zero_add]
      rw [← hname])
    exact hi (hall' (i + 1))

/-- C15: `addJobs` has no cycle guard.  On a server that answers every fetched
name with a folder holding one child folder whose children are absent, the
traversal from the single root folder `loopFolder` has not finished at any
depth bound; whereas on every job tree in which every chain of inline or
fetched children ends, `addJobs` finishes at every depth bound from some bound
on. -/
theorem addJobs_no_cycle_guard :
    (∀ n, addJobs n "" [loopFolder] (bareOptions loopJenkins, []) = none) ∧
    (∀ (jenkins : Jenkins) (o : StartPipelineOptions) (heap : Heap) (roots : List Job),
      o.JenkinsClient = .ok jenkins →
      (∀ f : Nat → String × List Job, f 0 = ("", roots) →
        ∃ i, ¬ ChildForest jenkins (f i) (f (i + 1))) →
      ∃ n, ∀ m, n ≤ m → ∃ s', addJobs m "" roots (o, heap) = some s') := by
  refine ⟨fun n => addJobs_loopFolder n "" _ rfl, ?_⟩
  intro jenkins o heap roots hclient hchains
  obtain ⟨n, hn⟩ := addJobs_ends jenkins (finite_of_chains_end jenkins ("", roots) hchains)
  refine ⟨n, fun m hm => ?_⟩
  obtain ⟨s', hs'⟩ := hn (o, heap) hclient
  exact ⟨s', addJobs_le hm hs'⟩

/-- C15, witness: every chain of children in the tree `team1` ends, and its
traversal finishes; the fetch of `loopJenkins` answers a folder with one child
folder whose children are absent. -/
theorem addJobs_no_cycle_guard_witness :
    (loopJenkins.GetJob "loop").map (fun j => j.Jobs.map (fun js => js.map (fun c => c.Jobs)))
      = .ok (some [none]) ∧
    (addJobs 4 "" [team1] (bareOptions bareJenkins, [])).isSome = true ∧
    ∃ n, ∀ m, n ≤ m → ∃ s', addJobs m "" [team1] (bareOptions bareJenkins, []) = some s' :=
  ⟨rfl, rfl,
    addJobs_no_cycle_guard.2 bareJenkins (bareOptions bareJenkins) [] [team1] rfl
      (chains_end_of_finite bareJenkins team1_finite)⟩

/-! ## C14 -/

/-- The loop over the arguments, cut in two: the later arguments are started
only after all the earlier ones returned success. -/
theorem startJobs_append (o : StartPipelineOptions) (heap : Heap) (fuel : Nat)
    (names : List String) (rest : List String) :
    ∀ (pre : List String) (w : World),
      startJobs o heap fuel names (pre ++ rest) w =
        match startJobs o heap fuel names pre w with
        | some (none, w') => startJobs o heap fuel names rest w'
        | r => r := by
  intro pre
  induction pre with
  | nil => intro w; rfl
  | cons a pre ih =>
    intro w
    simp only [List.cons_append, startJobs]
    cases hstart : startJob o heap fuel a names w with
    | none => rfl
    | some r =>
      obtain ⟨err, w1⟩ := r
      cases err with
      | some e => rfl
      | none => exact ih w1

/-- C14, amended: `Run` checks an explicit name only when its turn comes.  When
the arguments are `pre`, then a name `bad` that is not a key of the catalog,
then `post`, `Run` first starts the names of `pre` in order; if that does not
return success, `Run` ends as it does for `pre` alone; if it does, `Run`
returns the invalid-argument error for `bad` in the world that starting `pre`
left, so nothing is looked up, triggered or polled for `bad` or for `post`. -/
theorem Run_unknown_name (o : StartPipelineOptions) (jenkins : Jenkins) (jobs : List Job)
    (fuel : Nat) (w : World) (o' : StartPipelineOptions) (heap' : Heap)
    (pre : List String) (bad : String) (post : List String)
    (hclient : o.JenkinsClient = .ok jenkins) (hjobs : jenkins.GetJobs = .ok jobs)
    (hadd : addJobs fuel "" jobs ({ o with Jobs := [] }, []) = some (o', heap'))
    (hargs : o.Args = pre ++ bad :: post) (hbad : bad ∉ keys o') :
    Run o fuel w =
      match startJobs o' heap' fuel (sortedNames o') pre w with
      | some (none, w') => some (some (Error.InvalidArg bad (sortedNames o')), w')
      | r => r := by
  obtain ⟨c, pk, up, args, tl, fl, jb⟩ := o
  simp only at hclient hargs hadd
  subst hclient
  have hframe := (addJobs_adds jenkins fuel "" jobs _ (o', heap') rfl hadd).1
  have hargs' : o'.Args = pre ++ bad :: post := hframe.2.2.2.1.trans hargs
  have hsel : ∀ w, selectArgs o' (sortedNames o') w = (.ok (pre ++ bad :: post), w) := by
    intro w
    unfold selectArgs
    rw [hargs']
    cases pre <;> rfl
  simp only [Run, hjobs, hadd, hsel]
  rw [startJobs_append]
  cases hpre : startJobs o' heap' fuel (sortedNames o') pre w with
  | none => rfl
  | some r =>
    obtain ⟨err, w1⟩ := r
    cases err with
    | some e => rfl
    | none =>
      simp only [startJobs, startJob, lookup_eq_none_of_not_mem_keys bad o'.Jobs hbad]

/-- C14, witness: the unknown name `nope` comes first, before the valid name
`svc`: `Run` returns the invalid-argument error and nothing has happened. -/
theorem Run_unknown_name_witness :
    (steadyJenkins [svc]).GetJobs = .ok [svc] ∧
    Run { bareOptions (steadyJenkins [svc]) with Args := ["nope", "svc"] } 2 World.start =
      some (some (Error.InvalidArg "nope" ["svc"]), World.start) :=
  ⟨rfl,
    Run_unknown_name { bareOptions (steadyJenkins [svc]) with Args := ["nope", "svc"] }
      (steadyJenkins [svc]) [svc] 2 World.start
      { bareOptions (steadyJenkins [svc]) with Args := ["nope", "svc"], Jobs := [("svc", 0)] }
      [svc, default] [] "nope" ["svc"] rfl rfl rfl rfl (by decide)⟩

/-- C14, counterexample: the valid name `svc` precedes the unknown name `nope`.
`Run` returns the invalid-argument error for `nope`, but only after it looked
up, triggered and polled `svc`: the trace holds a `Build` request. -/
theorem Run_triggers_before_unknown_name :
    Run { bareOptions (steadyJenkins [svc]) with Args := ["svc", "nope"] } 2 World.start =
      some (some (Error.InvalidArg "nope" ["svc"]),
        ⟨3, 1, [Event.GetLastBuild svc, Event.Build svc, Event.GetLastBuild svc, Event.Sleep,
          Event.GetLastBuild svc, Event.Started "svc" ⟨42, "http://jenkins/job/42/"⟩]⟩) :=
  rfl

/-! ## C12 -/

theorem jobName_eq (pfx : String) (j : Job) :
    jobName pfx j = if pfx ≠ "" then pfx ++ "/" ++ ownName j else ownName j := rfl

theorem data_ne_nil {s : String} (h : s ≠ "") : s.data ≠ [] := by
  intro hd
  apply h
  cases s
  simp only at hd
  subst hd
  rfl

/-- The path of every node of a forest placed under a non-empty name starts with
that name and a '/'. -/
theorem Desc_under (jenkins : Jenkins) {pfx k : String} {jobs : List Job} {c : Job}
    (hd : Desc jenkins pfx jobs k c) : pfx ≠ "" → Under pfx k = true := by
  induction hd with
  | @here pfx jobs j _ =>
    intro hp
    simp only [Under, decide_eq_true_eq, jobName_eq, hp, ne_eq, not_false_eq_true, if_true,
      String.data_append]
    exact ⟨(ownName j).data, rfl⟩
  | @under pfx jobs j js k c _ _ _ ih =>
    intro hp
    have hne : jobName pfx j ≠ "" := by
      intro h
      have := congrArg String.data h
      simp only [jobName_eq, hp, ne_eq, not_false_eq_true, if_true, String.data_append] at this
      simp at this
    have h1 := ih hne
    simp only [Under, decide_eq_true_eq] at h1 ⊢
    refine List.IsPrefix.trans ?_ h1
    simp only [jobName_eq, hp, ne_eq, not_false_eq_true, if_true, String.data_append]
    exact ⟨(ownName j).data ++ ("/" : String).data, by simp only [List.append_assoc]⟩

/-- A fetch that fails where another may succeed loses children, never gains any. -/
theorem children_of_failing (g1 g2 : Jenkins) (n : String)
    (hagree : ∀ m, m ≠ n → g1.GetJob m = g2.GetJob m) (e : Error)
    (hfail : g1.GetJob n = .error e) {name : String} {j : Job} {js : List Job}
    (h : children g1 name j = some js) : children g2 name j = some js := by
  unfold children at h ⊢
  cases hj : j.Jobs with
  | some l => simpa [hj] using h
  | none =>
    simp only [hj] at h ⊢
    by_cases hn : name = n
    · subst hn
      simp [hfail] at h
    · rw [← hagree name hn]
      exact h

/-- The children lost to the failing fetch are those of nodes named `n` whose
children are absent. -/
theorem children_failing_cases (g1 g2 : Jenkins) (n : String)
    (hagree : ∀ m, m ≠ n → g1.GetJob m = g2.GetJob m)
    {name : String} {j : Job} {js : List Job}
    (h : children g2 name j = some js) :
    children g1 name j = some js ∨ name = n := by
  by_cases hn : name = n
  · exact Or.inr hn
  · left
    unfold children at h ⊢
    cases hj : j.Jobs with
    | some l => simpa [hj] using h
    | none =>
      simp only [hj] at h ⊢
      rw [hagree name hn]
      exact h

theorem Desc_of_failing (g1 g2 : Jenkins) (n : String)
    (hagree : ∀ m, m ≠ n → g1.GetJob m = g2.GetJob m) (e : Error)
    (hfail : g1.GetJob n = .error e) {pfx k : String} {jobs : List Job} {c : Job}
    (hd : Desc g1 pfx jobs k c) : Desc g2 pfx jobs k c := by
  induction hd with
  | here hj => exact Desc.here hj
  | under hj hch _ ih => exact Desc.under hj (children_of_failing g1 g2 n hagree e hfail hch) ih

theorem Desc_failing_cases (g1 g2 : Jenkins) (n : String)
    (hagree : ∀ m, m ≠ n → g1.GetJob m = g2.GetJob m) (hn : n ≠ "")
    {pfx k : String} {jobs : List Job} {c : Job}
    (hd : Desc g2 pfx jobs k c) : Desc g1 pfx jobs k c ∨ Under n k = true := by
  induction hd with
  | here hj => exact Or.inl (Desc.here hj)
  | under hj hch hsub ih =>
    rcases children_failing_cases g1 g2 n hagree hch with h1 | h1
    · rcases ih with h | h
      · exact Or.inl (Desc.under hj h1 h)
      · exact Or.inr h
    · rw [h1] at hsub
      exact Or.inr (Desc_under g2 hsub hn)

/-- A traversal that ends with the fetch that may succeed ends, within the same
depth, with the fetch that fails: the loop. -/
theorem addJobsLoop_failing_ends (g1 g2 : Jenkins) (n : String)
    (hagree : ∀ m, m ≠ n → g1.GetJob m = g2.GetJob m) (e : Error)
    (hfail : g1.GetJob n = .error e) (fuel : Nat)
    (hrec : ∀ (pfx : String) (jobs : List Job) (s1 s2 s2' : State),
      s1.1.JenkinsClient = .ok g1 → s2.1.JenkinsClient = .ok g2 →
      addJobs fuel pfx jobs s2 = some s2' → ∃ s1', addJobs fuel pfx jobs s1 = some s1')
    (pfx : String) (jp1 jp2 : Ptr) :
    ∀ (jobs : List Job) (s1 s2 s2' : State),
      s1.1.JenkinsClient = .ok g1 → s2.1.JenkinsClient = .ok g2 →
      addJobsLoop g2 (addJobs fuel) pfx jp2 jobs s2 = some s2' →
      ∃ s1', addJobsLoop g1 (addJobs fuel) pfx jp1 jobs s1 = some s1' := by
  intro jobs
  induction jobs with
  | nil => intro s1 _ _ _ _ _; exact ⟨s1, rfl⟩
  | cons j rest ih =>
    rintro ⟨o1, h1⟩ ⟨o2, h2⟩ s2' hc1 hc2 hrun
    simp only at hc1 hc2
    rw [addJobsLoop_cons] at hrun ⊢
    have hc1' : (if IsPipeline j && passes o1.Filter (jobName pfx j)
        then { o1 with Jobs := (jobName pfx j, jp1) :: o1.Jobs } else o1).JenkinsClient
          = .ok g1 := by
      split <;> exact hc1
    have hc2' : (if IsPipeline j && passes o2.Filter (jobName pfx j)
        then { o2 with Jobs := (jobName pfx j, jp2) :: o2.Jobs } else o2).JenkinsClient
          = .ok g2 := by
      split <;> exact hc2
    cases hch2 : children g2 (jobName pfx j) j with
    | none =>
      simp only [hch2] at hrun
      cases hch1 : children g1 (jobName pfx j) j with
      | none => exact ih _ _ _ hc1' hc2' hrun
      | some js =>
        rw [children_of_failing g1 g2 n hagree e hfail hch1] at hch2
        cases hch2
    | some js =>
      simp only [hch2] at hrun
      obtain ⟨s2b, hr2, hl2⟩ := Option.bind_eq_some.1 hrun
      have hc2b : s2b.1.JenkinsClient = .ok g2 :=
        (addJobs_adds g2 fuel _ _ _ _ hc2' hr2).1.1.trans hc2'
      cases hch1 : children g1 (jobName pfx j) j with
      | none => exact ih _ _ _ hc1' hc2b hl2
      | some js' =>
        have := children_of_failing g1 g2 n hagree e hfail hch1
        rw [hch2] at this
        cases this
        obtain ⟨s1b, hr1⟩ := hrec (jobName pfx j) js (_, h1.set jp1 j) _ _ hc1' hc2' hr2
        have hc1b : s1b.1.JenkinsClient = .ok g1 :=
          (addJobs_adds g1 fuel _ _ _ _ hc1' hr1).1.1.trans hc1'
        obtain ⟨s1', hl1⟩ := ih s1b s2b s2' hc1b hc2b hl2
        exact ⟨s1', Option.bind_eq_some.2 ⟨s1b, hr1, hl1⟩⟩

/-- A traversal that ends with the fetch that may succeed ends, within the same
depth, with the fetch that fails. -/
theorem addJobs_failing_ends (g1 g2 : Jenkins) (n : String)
    (hagree : ∀ m, m ≠ n → g1.GetJob m = g2.GetJob m) (e : Error)
    (hfail : g1.GetJob n = .error e) :
    ∀ (fuel : Nat) (pfx : String) (jobs : List Job) (s1 s2 s2' : State),
      s1.1.JenkinsClient = .ok g1 → s2.1.JenkinsClient = .ok g2 →
      addJobs fuel pfx jobs s2 = some s2' → ∃ s1', addJobs fuel pfx jobs s1 = some s1' := by
  intro fuel
  induction fuel with
  | zero => intro pfx jobs s1 s2 s2' _ _ h; simp [addJobs] at h
  | succ fuel ih =>
    rintro pfx jobs ⟨o1, h1⟩ ⟨o2, h2⟩ s2' hc1 hc2 hrun
    simp only at hc1 hc2
    simp only [addJobs, hc2] at hrun
    simp only [addJobs, hc1]
    exact addJobsLoop_failing_ends g1 g2 n hagree e hfail fuel ih pfx _ _ jobs _ _ s2' hc1 hc2 hrun

/-- A name without '/' appended to a place that is not under `N` gives a key that
is not under `N`. -/
theorem not_under_append (N P S : List Char) (hS : '/' ∉ S)
    (hP : ¬ (N ++ ['/'] <+: P ++ ['/'])) : ¬ (N ++ ['/'] <+: P ++ ['/'] ++ S) := by
  intro h
  rcases List.prefix_or_prefix_of_prefix h (List.prefix_append (P ++ ['/']) S) with h1 | h1
  · exact hP h1
  · obtain ⟨t, ht⟩ := h1
    rw [← ht] at h
    have hts : t <+: S := (List.prefix_append_right_inj _).1 h
    rcases List.eq_nil_or_concat t with rfl | ⟨t', c, rfl⟩
    · rw [List.append_nil] at ht
      exact hP (ht ▸ List.prefix_refl _)
    · rw [List.concat_eq_append, ← List.append_assoc] at ht
      have hc : [c] = ['/'] := List.append_inj_right' ht rfl
      have hmem : '/' ∈ t'.concat c := by
        rw [List.concat_eq_append]
        cases hc
        simp
      exact hS (hts.subset hmem)

theorem not_under_of_no_slash (N S : List Char) (hS : '/' ∉ S) : ¬ (N ++ ['/'] <+: S) := by
  intro h
  exact hS (h.subset (by simp))

/-- The key of a node listed at a place outside `n`, its own name free of '/',
is not under `n`. -/
theorem jobName_not_under (n pfx : String) (j : Job) (hout : Outside n pfx)
    (hj : '/' ∉ (ownName j).data) : Under n (jobName pfx j) = false := by
  simp only [Under, decide_eq_false_iff_not, jobName_eq, String.data_append]
  by_cases hp : pfx = ""
  · simp only [hp, ne_eq, not_true_eq_false, if_false]
    exact not_under_of_no_slash _ _ hj
  · simp only [hp, ne_eq, not_false_eq_true, if_true, String.data_append]
    rcases hout with h | h
    · exact absurd h hp
    · simp only [String.data_append] at h
      exact not_under_append _ _ _ hj h

/-- With the failing fetch no key lies under `n`, when no node's own name holds
a '/' and the nodes named `n` have no children to traverse. -/
theorem Desc_not_under (g : Jenkins) (n : String) {pfx k : String} {jobs : List Job} {c : Job}
    (hd : Desc g pfx jobs k c) :
    Outside n pfx →
    (∀ k' c', Desc g pfx jobs k' c' →
      '/' ∉ (ownName c').data ∧ (k' = n → children g k' c' = none)) →
    Under n k = false := by
  induction hd with
  | @here pfx jobs j hj =>
    intro hout hyp
    exact jobName_not_under n pfx j hout (hyp _ _ (Desc.here hj)).1
  | @under pfx jobs j js k c hj hch _ ih =>
    intro hout hyp
    have hhere := hyp _ _ (Desc.here hj)
    have hnot := jobName_not_under n pfx j hout hhere.1
    refine ih ?_ (fun k' c' hd' => hyp k' c' (Desc.under hj hch hd'))
    by_cases hk : jobName pfx j = ""
    · exact Or.inl hk
    · right
      intro hpre
      simp only [String.data_append] at hpre
      rcases List.prefix_concat_iff.1 hpre with h | h
      · have hdata : n.data = (jobName pfx j).data := List.append_cancel_right h
        have hn : jobName pfx j = n := by
          cases hx : jobName pfx j
          cases n
          rw [hx] at hdata
          simp only at hdata
          rw [hdata]
        rw [hhere.2 hn] at hch
        cases hch
      · simp only [Under, decide_eq_false_iff_not, String.data_append] at hnot
        exact hnot h

/-- C12, amended: take two clients whose fetches agree everywhere except that
the first fails for the folder name `n`, where `n` is not empty, the nodes
named `n` have absent children and no node's own name holds a '/'.  If the
traversal with the second client ends within a depth bound, so does the
traversal with the failing fetch (it returns no error), the two maps agree on
every key that does not start with `n + "/"`, and the map built with the
failing fetch has no key that starts with `n + "/"`. -/
theorem addJobs_fetch_failure (o : StartPipelineOptions) (heap : Heap) (roots : List Job)
    (fuel : Nat) (g1 g2 : Jenkins) (n : String) (e : Error) (s2 : State)
    (hagree : ∀ m, m ≠ n → g1.GetJob m = g2.GetJob m)
    (hfail : g1.GetJob n = .error e)
    (hn : n ≠ "")
    (habsent : ∀ j, Desc g2 "" roots n j → j.Jobs = none)
    (hnames : ∀ k j, Desc g2 "" roots k j → '/' ∉ (ownName j).data)
    (hrun : addJobs fuel "" roots ({ o with JenkinsClient := .ok g2, Jobs := [] }, heap)
      = some s2) :
    ∃ s1, addJobs fuel "" roots ({ o with JenkinsClient := .ok g1, Jobs := [] }, heap)
        = some s1 ∧
      (∀ k, Under n k = false → (k ∈ keys s1.1 ↔ k ∈ keys s2.1)) ∧
      (∀ k, k ∈ keys s1.1 → Under n k = false) := by
  obtain ⟨s1, hs1⟩ := addJobs_failing_ends g1 g2 n hagree e hfail fuel "" roots
    ({ o with JenkinsClient := .ok g1, Jobs := [] }, heap)
    ({ o with JenkinsClient := .ok g2, Jobs := [] }, heap) s2 rfl rfl hrun
  have hk1 := (addJobs_adds g1 fuel "" roots _ s1 rfl hs1).2
  have hk2 := (addJobs_adds g2 fuel "" roots _ s2 rfl hrun).2
  simp only [keys, List.map_nil, List.not_mem_nil, false_or] at hk1 hk2
  refine ⟨s1, hs1, fun k hk => ?_, fun k hk => ?_⟩
  · simp only [keys]
    rw [hk1 k, hk2 k]
    constructor
    · rintro ⟨j, hd, hp, hpass⟩
      exact ⟨j, Desc_of_failing g1 g2 n hagree e hfail hd, hp, hpass⟩
    · rintro ⟨j, hd, hp, hpass⟩
      rcases Desc_failing_cases g1 g2 n hagree hn hd with h | h
      · exact ⟨j, h, hp, hpass⟩
      · rw [hk] at h
        cases h
  · simp only [keys] at hk
    obtain ⟨j, hd, _, _⟩ := (hk1 k).1 hk
    refine Desc_not_under g1 n hd (Or.inl rfl) (fun k' c' hd' => ?_)
    have hd2 := Desc_of_failing g1 g2 n hagree e hfail hd'
    refine ⟨hnames k' c' hd2, fun hkn => ?_⟩
    subst hkn
    simp only [children, habsent c' hd2, hfail]

/-- The nodes of the tree used as witness. -/
theorem Desc_folderA_svc {k : String} {j : Job}
    (hd : Desc (fetchingJenkins "a") "" [folderA, svc] k j) :
    (k = "a" ∧ j = folderA) ∨ (k = "svc" ∧ j = svc) ∨ (k = "a/svc" ∧ j = svc) := by
  have hA : children (fetchingJenkins "a") (jobName "" folderA) folderA = some [svc] := rfl
  have hS : children (fetchingJenkins "a") (jobName "" svc) svc = some [] := rfl
  have hAS : children (fetchingJenkins "a") (jobName (jobName "" folderA) svc) svc
      = some [] := rfl
  rcases Desc_cons.1 hd with ⟨hk, hj⟩ | ⟨js, hjs, hd⟩ | hd
  · exact Or.inl ⟨hk, hj⟩
  · rw [hA] at hjs
    cases hjs
    rcases Desc_cons.1 hd with ⟨hk, hj⟩ | ⟨js, hjs, hd⟩ | hd
    · exact Or.inr (Or.inr ⟨hk, hj⟩)
    · rw [hAS] at hjs
      cases hjs
      exact absurd hd Desc_nil
    · exact absurd hd Desc_nil
  · rcases Desc_cons.1 hd with ⟨hk, hj⟩ | ⟨js, hjs, hd⟩ | hd
    · exact Or.inr (Or.inl ⟨hk, hj⟩)
    · rw [hS] at hjs
      cases hjs
      exact absurd hd Desc_nil
    · exact absurd hd Desc_nil

/-- C12, witness: the folder `a` next to the pipeline `svc`; the fetch of `a`
answers a folder holding a pipeline, or fails.  With the failing fetch the key
`a/svc` is gone and the key `svc` stays. -/
theorem addJobs_fetch_failure_witness :
    ∃ s1 s2,
      addJobs 3 "" [folderA, svc] (bareOptions bareJenkins, []) = some s1 ∧
      addJobs 3 "" [folderA, svc] (bareOptions (fetchingJenkins "a"), []) = some s2 ∧
      keys s1.1 = ["svc"] ∧ keys s2.1 = ["svc", "a/svc"] ∧
      (∀ k, Under "a" k = false → (k ∈ keys s1.1 ↔ k ∈ keys s2.1)) ∧
      (∀ k, k ∈ keys s1.1 → Under "a" k = false) := by
  have hsome : (addJobs 3 "" [folderA, svc]
      (bareOptions (fetchingJenkins "a"), [])).isSome = true := rfl
  obtain ⟨s1, h1, h2, h3⟩ := addJobs_fetch_failure (bareOptions bareJenkins) [] [folderA, svc] 3
    bareJenkins (fetchingJenkins "a") "a" (Error.other "404")
    ((addJobs 3 "" [folderA, svc] (bareOptions (fetchingJenkins "a"), [])).get hsome)
    (fun m hm => by simp [fetchingJenkins, hm])
    rfl (by decide)
    (fun j hd => by
      rcases Desc_folderA_svc hd with ⟨_, rfl⟩ | ⟨hk, _⟩ | ⟨hk, _⟩
      · rfl
      · exact absurd hk (by decide)
      · exact absurd hk (by decide))
    (fun k j hd => by
      rcases Desc_folderA_svc hd with ⟨_, rfl⟩ | ⟨_, rfl⟩ | ⟨_, rfl⟩ <;> decide)
    (Option.some_get hsome).symm
  have h1' : addJobs 3 "" [folderA, svc] (bareOptions bareJenkins, []) = some s1 := h1
  have hs1 : s1 = (addJobs 3 "" [folderA, svc] (bareOptions bareJenkins, [])).get rfl := by
    have := congrArg (fun r => r.getD s1) h1'
    simpa using this.symm
  refine ⟨s1, _, h1', (Option.some_get hsome).symm, ?_, rfl, h2, h3⟩
  rw [hs1]
  rfl

/-- C12, counterexample: (1) the folder `a`, whose fetch fails, listed next to a
pipeline whose own name is `a/b`: the map built with the failing fetch has the
key `a/b`, which starts with `a/`; (2) a folder with the empty name: the fetch
of the empty name answers a folder holding `svc` or fails, and the two maps
differ on the key `svc`, which does not start with `/`. -/
theorem addJobs_fetch_failure_by_names :
    ((addJobs 3 "" [folderA, slashed] (bareOptions bareJenkins, [])).map (fun s => keys s.1)
        = some ["a/b"] ∧ Under "a" "a/b" = true) ∧
    ((addJobs 3 "" [nameless] (bareOptions bareJenkins, [])).map (fun s => keys s.1) = some [] ∧
      (addJobs 3 "" [nameless] (bareOptions (fetchingJenkins ""), [])).map (fun s => keys s.1)
        = some ["svc"] ∧
      Under "" "svc" = false) := by
  refine ⟨⟨?_, ?_⟩, ?_, ?_, ?_⟩ <;> decide

/-! ## C10 at the level of `Run` -/

/-- C10, amended: when no explicit names are given and discovery built the
catalog `o'`, `Run` calls the picker with the keys of the catalog, each once
and in ascending order, and with a default name `d`, and then fails with the
picker's error or starts the picked name; `d` is the first of the sorted keys
whose last '/'-separated segment is `master` and which is not the root-level
key `master` itself, and `d` is empty if there is no such key. -/
theorem Run_default_name (o : StartPipelineOptions) (jenkins : Jenkins) (jobs : List Job)
    (fuel : Nat) (w : World) (o' : StartPipelineOptions) (heap' : Heap)
    (hclient : o.JenkinsClient = .ok jenkins) (hjobs : jenkins.GetJobs = .ok jobs)
    (hadd : addJobs fuel "" jobs ({ o with Jobs := [] }, []) = some (o', heap'))
    (hargs : o.Args = []) :
    ∃ d,
      Run o fuel w =
        (match o.PickNameWithDefault (sortedNames o') d with
          | .error err => some (some err, w.emit (Event.Pick (sortedNames o') d))
          | .ok name =>
            startJobs o' heap' fuel (sortedNames o') [name]
              (w.emit (Event.Pick (sortedNames o') d))) ∧
      (∀ k, k ∈ sortedNames o' ↔ k ∈ keys o') ∧
      (sortedNames o').Nodup ∧
      (sortedNames o').Pairwise (fun a b => strLe a b = true) ∧
      ((d = "" ∧ ∀ n ∈ sortedNames o', ¬ UnderMaster n) ∨
       (∃ pre post, sortedNames o' = pre ++ d :: post ∧ UnderMaster d ∧
          ∀ n ∈ pre, ¬ UnderMaster n)) := by
  obtain ⟨c, pk, up, args, tl, fl, jb⟩ := o
  simp only at hclient hargs hadd
  subst hclient
  subst hargs
  have hframe := (addJobs_adds jenkins fuel "" jobs _ (o', heap') rfl hadd).1
  have hargs' : o'.Args = [] := hframe.2.2.2.1
  have hpick : o'.PickNameWithDefault = pk := hframe.2.1
  refine ⟨defaultName (sortedNames o'), ?_, fun k => ?_, ?_, ?_, ?_⟩
  · simp only [Run, hjobs, hadd, selectArgs, hargs', hpick]
    cases pk (sortedNames o') (defaultName (sortedNames o')) <;> rfl
  · simp [sortedNames, mem_sortStrings]
  · exact nodup_sortStrings _ (List.nodup_dedup _)
  · exact pairwise_sortStrings _
  · rcases defaultName_spec (sortedNames o') with ⟨h1, h2⟩ | ⟨pre, post, h1, h2, h3⟩
    · refine Or.inl ⟨h1, fun n hn hu => ?_⟩
      have := (hasSuffix_master_iff n).2 hu
      rw [h2 n hn] at this
      exact absurd this (by simp)
    · refine Or.inr ⟨pre, post, h1, (hasSuffix_master_iff _).1 h2, fun n hn hu => ?_⟩
      have := (hasSuffix_master_iff n).2 hu
      rw [h3 n hn] at this
      exact absurd this (by simp)

/-- C10, witness: the server lists `lib` (holding `master`), `master` and `app`
(holding `master`); `Run`, given no names, offers the picker the sorted keys
and the default `app/master`. -/
theorem Run_default_name_witness :
    (interruptedOptions (steadyJenkins masterJobs)).Args = [] ∧
    Run (interruptedOptions (steadyJenkins masterJobs)) 3 World.start =
      some (some (Error.other "interrupt"),
        ⟨0, 0, [Event.Pick ["app/master", "lib/master", "master"] "app/master"]⟩) ∧
    ∃ d,
      Run (interruptedOptions (steadyJenkins masterJobs)) 3 World.start =
        some (some (Error.other "interrupt"),
          ⟨0, 0, [Event.Pick ["app/master", "lib/master", "master"] d]⟩) ∧
      ((d = "" ∧ ∀ n ∈ ["app/master", "lib/master", "master"], ¬ UnderMaster n) ∨
       (∃ pre post, ["app/master", "lib/master", "master"] = pre ++ d :: post ∧
          UnderMaster d ∧ ∀ n ∈ pre, ¬ UnderMaster n)) := by
  have h : (addJobs 3 "" masterJobs
      ({ interruptedOptions (steadyJenkins masterJobs) with Jobs := [] }, [])).isSome = true :=
    rfl
  obtain ⟨d, hrun, _, _, _, hd⟩ := Run_default_name
    (interruptedOptions (steadyJenkins masterJobs)) (steadyJenkins masterJobs) masterJobs 3
    World.start _ _ rfl rfl (Option.some_get h).symm rfl
  exact ⟨rfl, rfl, d, hrun, hd⟩

/-! ## C1 -/

theorem append_slash_ne_empty (q x : String) : q ++ "/" ++ x ≠ "" := by
  intro h
  have := congrArg String.data h
  simp at this

theorem ownName_eq_name {j : Job} (h : j.FullName = "" ∨ j.FullName = j.Name) :
    ownName j = j.Name := by
  unfold ownName
  rcases h with h | h
  · rw [if_pos h]
  · by_cases h0 : j.FullName = ""
    · rw [if_pos h0]
    · rw [if_neg h0, h]

/-- A child of a node of a forest is a node of the forest. -/
theorem Desc_child (jenkins : Jenkins) {pfx p : String} {jobs js : List Job} {j c : Job}
    (hd : Desc jenkins pfx jobs p j) (hch : children jenkins p j = some js) (hc : c ∈ js) :
    Desc jenkins pfx jobs (jobName p c) c := by
  induction hd with
  | here hj => exact Desc.under hj hch (Desc.here hc)
  | under hj hch' _ ih => exact Desc.under hj hch' (ih hch)

/-- A node that has a child has a non-empty name path, when the roots with the
empty name have none. -/
theorem NamePath_ne_empty (jenkins : Jenkins) (roots : List Job)
    (hroot : ∀ j ∈ roots, j.Name = "" → ∀ js, children jenkins "" j = some js → js = [])
    {p : String} {j : Job} {js : List Job} {c : Job}
    (h : NamePath jenkins roots p j) (hch : children jenkins p j = some js) (hc : c ∈ js) :
    p ≠ "" := by
  cases h with
  | root hj =>
    intro hname
    rw [hname] at hch
    rw [hroot j hj hname js hch] at hc
    exact absurd hc (List.not_mem_nil _)
  | child _ _ _ => exact append_slash_ne_empty _ _

/-- Every name path is a name given by `jobName`, on a tree whose nodes carry no
`FullName` of their own and whose roots with the empty name have no children. -/
theorem Desc_of_NamePath (jenkins : Jenkins) (roots : List Job)
    (hfull : ∀ p j, NamePath jenkins roots p j → j.FullName = "" ∨ j.FullName = j.Name)
    (hroot : ∀ j ∈ roots, j.Name = "" → ∀ js, children jenkins "" j = some js → js = [])
    {p : String} {j : Job} (h : NamePath jenkins roots p j) : Desc jenkins "" roots p j := by
  induction h with
  | @root j hj =>
    have hname : jobName "" j = j.Name := by
      rw [jobName_eq, if_neg (by simp), ownName_eq_name (hfull _ _ (NamePath.root hj))]
    rw [← hname]
    exact Desc.here hj
  | @child p j js c h hch hc ih =>
    have hp := NamePath_ne_empty jenkins roots hroot h hch hc
    have hname : jobName p c = p ++ "/" ++ c.Name := by
      rw [jobName_eq, if_pos hp, ownName_eq_name (hfull _ _ (NamePath.child h hch hc))]
    rw [← hname]
    exact Desc_child jenkins ih hch hc

/-- The node `j` listed in `jobs` under `pfx`, when that place is the root list
or the children of a node with the name path `pfx`. -/
theorem NamePath_here (jenkins : Jenkins) (roots : List Job)
    (hfull : ∀ p j, NamePath jenkins roots p j → j.FullName = "" ∨ j.FullName = j.Name)
    {pfx : String} {jobs : List Job} {j : Job} (hj : j ∈ jobs)
    (hctx : (pfx = "" ∧ jobs = roots) ∨
      (pfx ≠ "" ∧ ∃ j0, NamePath jenkins roots pfx j0 ∧ children jenkins pfx j0 = some jobs)) :
    NamePath jenkins roots (jobName pfx j) j := by
  rcases hctx with ⟨hp, hjobs⟩ | ⟨hp, j0, h0, hch0⟩
  · subst hp
    subst hjobs
    have hnp : NamePath jenkins jobs j.Name j := NamePath.root hj
    rw [jobName_eq, if_neg (by simp), ownName_eq_name (hfull _ _ hnp)]
    exact hnp
  · have hnp := NamePath.child h0 hch0 hj
    rw [jobName_eq, if_pos hp, ownName_eq_name (hfull _ _ hnp)]
    exact hnp

/-- Every name given by `jobName` is a name path, on such a tree. -/
theorem NamePath_of_Desc (jenkins : Jenkins) (roots : List Job)
    (hfull : ∀ p j, NamePath jenkins roots p j → j.FullName = "" ∨ j.FullName = j.Name)
    (hroot : ∀ j ∈ roots, j.Name = "" → ∀ js, children jenkins "" j = some js → js = [])
    {pfx k : String} {jobs : List Job} {c : Job} (hd : Desc jenkins pfx jobs k c) :
    ((pfx = "" ∧ jobs = roots) ∨
      (pfx ≠ "" ∧ ∃ j0, NamePath jenkins roots pfx j0 ∧ children jenkins pfx j0 = some jobs)) →
    NamePath jenkins roots k c := by
  induction hd with
  | @here pfx jobs j hj =>
    intro hctx
    exact NamePath_here jenkins roots hfull hj hctx
  | @under pfx jobs j js k c hj hch hsub ih =>
    intro hctx
    have hnp := NamePath_here jenkins roots hfull hj hctx
    by_cases hk : jobName pfx j = ""
    · exfalso
      rcases hctx with ⟨hp, hjobs⟩ | ⟨hp, _⟩
      · subst hp
        subst hjobs
        have hname : j.Name = "" := by
          have h1 : jobName "" j = j.Name := by
            rw [jobName_eq, if_neg (by simp),
              ownName_eq_name (hfull _ _ (NamePath.root hj : NamePath jenkins jobs j.Name j))]
          rw [← h1, hk]
        rw [hk] at hch hsub
        rw [hroot j hj hname js hch] at hsub
        exact Desc_nil hsub
      · rw [jobName_eq, if_pos hp] at hk
        exact append_slash_ne_empty _ _ hk
    · exact ih (Or.inr ⟨hk, j, hnp, hch⟩)

/-- C1, amended: with no filter and a client at hand, on every finite job tree
(children given inline or returned by a successful fetch) in which each node's
`FullName` is empty or equal to its `Name` and a root with the empty `Name`
has no children, `addJobs "" roots` run on an empty map ends, at every depth
bound from some bound on, and the keys of the map it built are exactly the
'/'-joined root-to-node name paths of the pipeline-classified nodes, those
that have children included. -/
theorem addJobs_keys_are_name_paths (jenkins : Jenkins) (o : StartPipelineOptions)
    (heap : Heap) (roots : List Job)
    (hclient : o.JenkinsClient = .ok jenkins) (hfilter : o.Filter = "") (hempty : o.Jobs = [])
    (hfin : FiniteForest jenkins "" roots)
    (hfull : ∀ p j, NamePath jenkins roots p j → j.FullName = "" ∨ j.FullName = j.Name)
    (hroot : ∀ j ∈ roots, j.Name = "" → ∀ js, children jenkins "" j = some js → js = []) :
    ∃ n, ∀ m, n ≤ m → ∃ s', addJobs m "" roots (o, heap) = some s' ∧
      ∀ k, k ∈ keys s'.1 ↔ ∃ j, NamePath jenkins roots k j ∧ IsPipeline j = true := by
  obtain ⟨n, hn⟩ := addJobs_keys_are_pipeline_paths jenkins o heap roots hclient hfilter hempty hfin
  refine ⟨n, fun m hm => ?_⟩
  obtain ⟨s', hs', hk⟩ := hn m hm
  refine ⟨s', hs', fun k => ?_⟩
  rw [hk k]
  constructor
  · rintro ⟨j, hd, hp⟩
    exact ⟨j, NamePath_of_Desc jenkins roots hfull hroot hd (Or.inl ⟨rfl, rfl⟩), hp⟩
  · rintro ⟨j, hnp, hp⟩
    exact ⟨j, Desc_of_NamePath jenkins roots hfull hroot hnp, hp⟩

/-- The nodes of the tree `team1` and their name paths. -/
theorem NamePath_team1 {p : String} {j : Job} (h : NamePath bareJenkins [team1] p j) :
    (p = "team1" ∧ j = team1) ∨ (p = "team1/service-a" ∧ j = serviceA) ∨
    (p = "team1/nested" ∧ j = nestedFolder) ∨ (p = "team1/nested/service-b" ∧ j = serviceB) := by
  induction h with
  | @root j hj =>
    simp only [List.mem_singleton] at hj
    subst hj
    exact Or.inl ⟨rfl, rfl⟩
  | @child p j js c _ hch hc ih =>
    rcases ih with ⟨rfl, rfl⟩ | ⟨rfl, rfl⟩ | ⟨rfl, rfl⟩ | ⟨rfl, rfl⟩
    · have h1 : children bareJenkins "team1" team1 = some [serviceA, nestedFolder] := rfl
      rw [h1] at hch
      cases hch
      simp only [List.mem_cons, List.mem_singleton, List.not_mem_nil, or_false] at hc
      rcases hc with rfl | rfl
      · exact Or.inr (Or.inl ⟨rfl, rfl⟩)
      · exact Or.inr (Or.inr (Or.inl ⟨rfl, rfl⟩))
    · have h1 : children bareJenkins "team1/service-a" serviceA = some [] := rfl
      rw [h1] at hch
      cases hch
      exact absurd hc (List.not_mem_nil _)
    · have h1 : children bareJenkins "team1/nested" nestedFolder = some [serviceB] := rfl
      rw [h1] at hch
      cases hch
      simp only [List.mem_singleton] at hc
      subst hc
      exact Or.inr (Or.inr (Or.inr ⟨rfl, rfl⟩))
    · have h1 : children bareJenkins "team1/nested/service-b" serviceB = some [] := rfl
      rw [h1] at hch
      cases hch
      exact absurd hc (List.not_mem_nil _)

/-- C1, witness: the tree `team1` of the claim is finite, its nodes carry no
`FullName` and its root is named, and the traversal yields exactly the keys
`team1/service-a` and `team1/nested/service-b`. -/
theorem addJobs_keys_are_name_paths_witness :
    (∃ n, ∀ m, n ≤ m → ∃ s', addJobs m "" [team1] (bareOptions bareJenkins, []) = some s' ∧
      ∀ k, k ∈ keys s'.1 ↔ ∃ j, NamePath bareJenkins [team1] k j ∧ IsPipeline j = true) ∧
    (addJobs 4 "" [team1] (bareOptions bareJenkins, [])).map (fun s => keys s.1)
      = some ["team1/nested/service-b", "team1/service-a"] := by
  refine ⟨addJobs_keys_are_name_paths bareJenkins (bareOptions bareJenkins) [] [team1]
    rfl rfl rfl team1_finite ?_ ?_, by decide⟩
  · intro p j h
    rcases NamePath_team1 h with ⟨_, rfl⟩ | ⟨_, rfl⟩ | ⟨_, rfl⟩ | ⟨_, rfl⟩ <;> exact Or.inl rfl
  · intro j hj hname
    simp only [List.mem_singleton] at hj
    subst hj
    exact absurd hname (by decide)

/-- The nodes of the tree `multi` and their name paths. -/
theorem NamePath_multi {p : String} {j : Job} (h : NamePath bareJenkins [multi] p j) :
    (p = "multi" ∧ j = multi) ∨ (p = "multi/master" ∧ j = rootMaster) := by
  induction h with
  | @root j hj =>
    simp only [List.mem_singleton] at hj
    subst hj
    exact Or.inl ⟨rfl, rfl⟩
  | @child p j js c _ hch hc ih =>
    rcases ih with ⟨rfl, rfl⟩ | ⟨rfl, rfl⟩
    · have h1 : children bareJenkins "multi" multi = some [rootMaster] := rfl
      rw [h1] at hch
      cases hch
      simp only [List.mem_singleton] at hc
      subst hc
      exact Or.inr ⟨rfl, rfl⟩
    · have h1 : children bareJenkins "multi/master" rootMaster = some [] := rfl
      rw [h1] at hch
      cases hch
      exact absurd hc (List.not_mem_nil _)

/-- C1, counterexample: (1) on the tree `multi` the map gets the key `multi`,
although `multi` is not the name path of any pipeline-classified leaf: the
node `multi` has the child `master`; (2) the pipeline leaf `svc` of the folder
`team1` has the name path `team1/svc`, but, its `FullName` being `team1/svc`,
the map gets the key `team1/team1/svc` instead; (3) the pipeline leaf `svc` of
a root folder with the empty name has the name path `/svc`, but the map gets
the key `svc` instead. -/
theorem addJobs_keys_not_leaf_name_paths :
    (∃ s', addJobs 3 "" [multi] (bareOptions bareJenkins, []) = some s' ∧
      keys s'.1 = ["multi/master", "multi"] ∧
      ¬ ∃ j, NamePath bareJenkins [multi] "multi" j ∧ IsPipeline j = true ∧
        IsLeaf bareJenkins "multi" j) ∧
    (∃ s', addJobs 3 "" [fullNamed] (bareOptions bareJenkins, []) = some s' ∧
      keys s'.1 = ["team1/team1/svc"] ∧ "team1/svc" ∉ keys s'.1 ∧
      ∃ j, NamePath bareJenkins [fullNamed] "team1/svc" j ∧ IsPipeline j = true ∧
        IsLeaf bareJenkins "team1/svc" j) ∧
    (∃ s', addJobs 3 "" [namelessFolder] (bareOptions bareJenkins, []) = some s' ∧
      keys s'.1 = ["svc"] ∧ "/svc" ∉ keys s'.1 ∧
      ∃ j, NamePath bareJenkins [namelessFolder] "/svc" j ∧ IsPipeline j = true ∧
        IsLeaf bareJenkins "/svc" j) := by
  refine ⟨⟨_, rfl, by decide, ?_⟩, ⟨_, rfl, by decide, by decide, fullNamedSvc, ?_, by decide, Or.inr rfl⟩,
    ⟨_, rfl, by decide, by decide, svc, ?_, by decide, Or.inr rfl⟩⟩
  · rintro ⟨j, hnp, _, hleaf⟩
    have h1 : children bareJenkins "multi" multi = some [rootMaster] := rfl
    rcases NamePath_multi hnp with ⟨_, rfl⟩ | ⟨hp, _⟩
    · rcases hleaf with h | h
      · rw [h1] at h; cases h
      · rw [h1] at h; cases h
    · exact absurd hp (by decide)
  · have hr : NamePath bareJenkins [fullNamed] fullNamed.Name fullNamed :=
      NamePath.root (List.mem_singleton.2 rfl)
    have hc : NamePath bareJenkins [fullNamed] (fullNamed.Name ++ "/" ++ fullNamedSvc.Name)
        fullNamedSvc :=
      NamePath.child hr (rfl : children bareJenkins fullNamed.Name fullNamed
        = some [fullNamedSvc]) (List.mem_singleton.2 rfl)
    exact hc
  · have hr : NamePath bareJenkins [namelessFolder] namelessFolder.Name namelessFolder :=
      NamePath.root (List.mem_singleton.2 rfl)
    have hc : NamePath bareJenkins [namelessFolder] (namelessFolder.Name ++ "/" ++ svc.Name)
        svc :=
      NamePath.child hr (rfl : children bareJenkins namelessFolder.Name namelessFolder
        = some [svc]) (List.mem_singleton.2 rfl)
    exact hc

end StartPipeline
